import Mathlib

/-!
# Verification of the lado diff-assembly core

Shallow embedding of the repository's diff assembly and annotation pipeline:

* `src/github.rs` — review-comment model and `group_comments_by_file`;
* `src/cli.rs` — `DiffTarget::parse`;
* `src/git/diff.rs` — diff data model;
* `src/git/file_tree.rs` — `build_file_tree`, `insert_path`, `sort_tree`,
  `flatten_tree`;
* `src/app.rs` — `get_lines_for_file` (the line interleaver),
  `format_timestamp`, and the commit-selection logic of `on_commit_selected`;
* `src/models/span_model.rs` — `parse_hex_color`;
* `src/models/diff_model.rs` — `DiffLineModel`.

Rust `HashMap`s are embedded as association lists that keep keys in first
insertion order; only the keyed-lookup behaviour of the maps is observable in
the verified claims, never the iteration order.  Rust's stable `sort_by` is
embedded as `List.mergeSort` (stable) over the boolean reflection
`cmp a b ≠ .gt` of the comparator.  Machine integers (`u32`, `u64`) hold
values small enough here that they are embedded as `Nat`, except where the
source can overflow (`str::parse::<u32>`), where the bound `2^32` is checked
explicitly.
-/

/-- Comparator on `Nat` mirroring Rust `u64::cmp`/`u32::cmp`. -/
def natCmp (a b : Nat) : Ordering :=
  if a < b then .lt else if b < a then .gt else .eq

/-- Comparator on `String` mirroring Rust `str::cmp` (lexicographic; UTF-8
byte order and codepoint order agree on valid UTF-8). -/
def strCmp (s t : String) : Ordering :=
  if s.data < t.data then .lt else if t.data < s.data then .gt else .eq

/-- Comparator on `Option Nat` mirroring the derived `Ord` of Rust
`Option<u32>`: `None` is less than every `Some`. -/
def optNatCmp : Option Nat → Option Nat → Ordering
  | none, none => .eq
  | none, some _ => .lt
  | some _, none => .gt
  | some a, some b => natCmp a b

/-- Association-list lookup, the embedding of `HashMap::get`. -/
def alGet {β : Type} : List (String × β) → String → Option β
  | [], _ => none
  | (k, v) :: rest, key => if k = key then some v else alGet rest key

/-- Association-list insert-or-replace: replaces the value in place when the
key is present, appends otherwise.  Embedding of `HashMap::insert` /
`entry().or_insert…` for a map kept in first-insertion key order. -/
def alPut {β : Type} : List (String × β) → String → β → List (String × β)
  | [], key, v => [(key, v)]
  | (k, w) :: rest, key, v =>
    if k = key then (k, v) :: rest else (k, w) :: alPut rest key v

/-! ## src/github.rs -/

/-- Which side of the diff a comment is on (`CommentSide`). -/
inductive CommentSide : Type where
  | Left
  | Right
deriving DecidableEq, Repr

/-- A single PR review comment (`PrComment`). -/
structure PrComment : Type where
  id : Nat
  in_reply_to_id : Option Nat
  path : String
  line : Option Nat
  side : CommentSide
  body : String
  author : String
  created_at : String
  commit_id : String
  original_commit_id : String
deriving DecidableEq, Repr

/-- A single commit in a PR (`PrCommit`). -/
structure PrCommit : Type where
  sha : String
  short_sha : String
  parent_sha : Option String
  message : String
  author : String
deriving DecidableEq, Repr

/-- Comments grouped by file path (`FileComments = HashMap<String, Vec<PrComment>>`),
as an association list in first-insertion key order. -/
abbrev FileComments : Type := List (String × List PrComment)

/-- The comparator used by `group_comments_by_file`:
line number first (Rust `Option` order, `None` least), then id. -/
def commentCmp (a b : PrComment) : Ordering :=
  match optNatCmp a.line b.line with
  | .eq => natCmp a.id b.id
  | o => o

/-- Boolean "less or equal" reflection of `commentCmp`, the ordering handed
to the stable sort. -/
def commentLe (a b : PrComment) : Bool :=
  commentCmp a b ≠ .gt

/-- One step of the grouping loop of `group_comments_by_file`:
`grouped.entry(comment.path.clone()).or_default().push(comment)`. -/
def fcPush : FileComments → PrComment → FileComments
  | [], c => [(c.path, [c])]
  | (k, cs) :: rest, c =>
    if k = c.path then (k, cs ++ [c]) :: rest else (k, cs) :: fcPush rest c

/-- `group_comments_by_file` (src/github.rs:208-226): partition the comments
by `path`, then stably sort each partition by `(line, id)` where the `line`
comparison is the derived order on `Option<u32>` (`None` first). -/
def group_comments_by_file (comments : List PrComment) : FileComments :=
  (comments.foldl fcPush []).map (fun kv => (kv.1, kv.2.mergeSort commentLe))

/-! ## src/cli.rs -/

/-- The resolved diff target (`DiffTarget`). -/
inductive DiffTarget : Type where
  | DefaultBranch
  | Ref (name : String)
  | PullRequest (n : Nat)
deriving DecidableEq, Repr

/-- Embedding of Rust `str::parse::<u32>`: an optional leading `'+'`, then at
least one ASCII digit, value at most `2^32 - 1`; anything else fails. -/
def parseU32 (s : String) : Option Nat :=
  let cs : List Char :=
    match s.toList with
    | '+' :: rest => rest
    | l => l
  if cs = [] then none
  else if cs.all Char.isDigit then
    let n := cs.foldl (fun acc c => acc * 10 + (c.toNat - 48)) 0
    if n < 4294967296 then some n else none
  else none

/-- `s.strip_prefix('#').unwrap_or(s)`: drop one leading `'#'` if present. -/
def stripHash (s : String) : String :=
  match s.toList with
  | '#' :: rest => String.mk rest
  | _ => s

/-- `DiffTarget::parse` (src/cli.rs:33-50): strip one leading `'#'`; if the
remainder parses as a `u32` and the original string either started with `'#'`
or is all ASCII digits, the target is a pull request; otherwise a git ref. -/
def DiffTarget.parse (target : Option String) : DiffTarget :=
  match target with
  | none => .DefaultBranch
  | some s =>
    let pr_str : String := stripHash s
    match parseU32 pr_str with
    | some n =>
      if s.toList.head? = some '#' ∨ s.toList.all Char.isDigit then
        .PullRequest n
      else .Ref s
    | none => .Ref s

/-! ## src/git/diff.rs -/

/-- Status of a file in the diff (`FileStatus`). -/
inductive FileStatus : Type where
  | Added
  | Modified
  | Deleted
  | Renamed
deriving DecidableEq, Repr

/-- `FileStatus::as_str`. -/
def FileStatus.as_str : FileStatus → String
  | .Added => "added"
  | .Modified => "modified"
  | .Deleted => "deleted"
  | .Renamed => "renamed"

/-- A changed file in the diff (`FileChange`). -/
structure FileChange : Type where
  path : String
  status : FileStatus
  additions : Nat
  deletions : Nat
deriving DecidableEq, Repr

/-- Type of a diff line (`DiffLineType`). -/
inductive DiffLineType : Type where
  | Add
  | Remove
  | Context
  | Hunk
  | Comment
deriving DecidableEq, Repr

/-- Data for a comment line (`CommentData`). -/
structure CommentData : Type where
  author : String
  body : String
  timestamp : String
  is_reply : Bool
deriving DecidableEq, Repr

/-- A single line in a diff (`DiffLine`). -/
structure DiffLine : Type where
  line_type : DiffLineType
  old_line_num : Option Nat
  new_line_num : Option Nat
  content : String
  comment : Option CommentData
deriving DecidableEq, Repr

/-- A hunk in a diff (`DiffHunk`). -/
structure DiffHunk : Type where
  header : String
  old_start : Nat
  old_lines : Nat
  new_start : Nat
  new_lines : Nat
  lines : List DiffLine
deriving DecidableEq, Repr

/-- Complete diff data (`DiffData`); `file_hunks` is the
`HashMap<String, Vec<DiffHunk>>` embedded as an association list. -/
structure DiffData : Type where
  files : List FileChange
  file_hunks : List (String × List DiffHunk)

/-! ## src/git/file_tree.rs -/

/-- A node in the file tree (`FileTreeNode`).  A recursive struct in Rust,
hence an inductive here. -/
inductive FileTreeNode : Type where
  | mk (name : String) (path : String) (is_folder : Bool)
      (children : List FileTreeNode) (status : Option String)

def FileTreeNode.name : FileTreeNode → String
  | .mk n _ _ _ _ => n

def FileTreeNode.path : FileTreeNode → String
  | .mk _ p _ _ _ => p

def FileTreeNode.is_folder : FileTreeNode → Bool
  | .mk _ _ f _ _ => f

def FileTreeNode.children : FileTreeNode → List FileTreeNode
  | .mk _ _ _ cs _ => cs

def FileTreeNode.status : FileTreeNode → Option String
  | .mk _ _ _ _ st => st

/-- A flattened file entry for the UI (`FlatFileEntry`). -/
structure FlatFileEntry : Type where
  name : String
  path : String
  depth : Int
  is_folder : Bool
  is_expanded : Bool
  status : String
deriving DecidableEq, Repr

/-- Embedding of `file.path.split('/')` (Rust `str::split` on a char):
split the character sequence on `'/'`.  `String` in Lean is a list of
characters, so this is `List.splitOn` on the underlying data. -/
def splitSlash (s : String) : List String :=
  (s.data.splitOn '/').map (fun l => String.mk l)

/-- `insert_path` (src/git/file_tree.rs:32-71).  The two `HashMap`s (the
sibling map and the drained child map) are association lists in
first-insertion key order; `or_insert_with` followed by mutation is
insert-or-replace at the key.  Note the source quirks kept verbatim: a fresh
folder node's `path` is `parts[..1].join("/")`, i.e. just its own segment,
and the file branch overwrites `status` and `path` on whatever node sits at
the key, without touching `is_folder` or `children`. -/
def insert_path (nodes : List (String × FileTreeNode)) (parts : List String)
    (full_path : String) (status : String) : List (String × FileTreeNode) :=
  match parts with
  | [] => nodes
  | name :: rest =>
    let node0 : FileTreeNode :=
      match alGet nodes name with
      | some n => n
      | none =>
        .mk name (if rest.isEmpty then full_path else name)
          (!rest.isEmpty) [] none
    let node1 : FileTreeNode :=
      if rest.isEmpty then
        .mk node0.name full_path node0.is_folder node0.children (some status)
      else
        let childMap := node0.children.map (fun n => (n.name, n))
        let childMap1 := insert_path childMap rest full_path status
        .mk node0.name node0.path node0.is_folder
          (childMap1.map (fun kv => kv.2)) node0.status
    alPut nodes name node1

/-- Model of Rust `str::to_lowercase` used by `sort_tree`'s comparator:
lowercase each character (`Char.toLower` maps `A`-`Z` to `a`-`z` and is the
identity elsewhere).  On ASCII strings this is exactly Rust's Unicode
lowercasing — Unicode maps ASCII uppercase to ASCII lowercase per character
and no special-casing rule touches ASCII — so every claim about this
comparator (C4) is stated for ASCII paths, the domain where the model is
exact; outside ASCII, Unicode lowercasing can merge or reorder names that
this per-character map keeps distinct. -/
def strToLower (s : String) : String :=
  String.mk (s.data.map Char.toLower)

/-- The comparator of `sort_tree` (src/git/file_tree.rs:73-86): folders
first, then case-insensitive lexicographic by name (`to_lowercase` modeled
per character by `strToLower`, exact on ASCII names). -/
def nodeCmp (a b : FileTreeNode) : Ordering :=
  match a.is_folder, b.is_folder with
  | true, false => .lt
  | false, true => .gt
  | _, _ => strCmp (strToLower a.name) (strToLower b.name)

/-- Boolean "less or equal" reflection of `nodeCmp`, handed to the stable
sort. -/
def nodeLe (a b : FileTreeNode) : Bool :=
  nodeCmp a b ≠ .gt

mutual

/-- `sort_tree` (src/git/file_tree.rs:73-86): stably sort the sibling list
by `nodeCmp`, then recursively sort every node's children. -/
def sort_tree (nodes : List FileTreeNode) : List FileTreeNode :=
  (nodes.mergeSort nodeLe).attach.map (fun x => sortNode x.1)
termination_by sizeOf nodes
decreasing_by
  have hmem : x.1 ∈ nodes := List.mem_mergeSort.mp x.2
  exact List.sizeOf_lt_of_mem hmem

/-- Sorting of one node's subtree: the recursion of `sort_tree` into
`node.children`. -/
def sortNode : FileTreeNode → FileTreeNode
  | .mk n p f cs st => .mk n p f (sort_tree cs) st
termination_by n => sizeOf n
decreasing_by
  simp
  omega

end

/-- `build_file_tree` (src/git/file_tree.rs:18-30). -/
def build_file_tree (files : List FileChange) : List FileTreeNode :=
  let root := files.foldl
    (fun m f => insert_path m (splitSlash f.path) f.path f.status.as_str) []
  sort_tree (root.map (fun kv => kv.2))

/-- `flatten_tree` (src/git/file_tree.rs:89-108): pre-order walk; folders are
emitted expanded; a node's children are walked only when `is_folder`. -/
def flatten_tree : List FileTreeNode → Int → List FlatFileEntry
  | [], _ => []
  | .mk n p f cs st :: rest, depth =>
    { name := n, path := p, depth := depth, is_folder := f,
      is_expanded := true, status := st.getD "modified" }
      :: ((if f then flatten_tree cs (depth + 1) else []) ++ flatten_tree rest depth)
termination_by ns _ => sizeOf ns

/-! ## src/highlighting/syntax.rs (interface only) -/

/-- A span of text with color (`HighlightedSpan`). -/
structure HighlightedSpan : Type where
  text : String
  color : String
deriving DecidableEq, Repr

/-- A highlighted line consisting of styled spans (`HighlightedLine`). -/
structure HighlightedLine : Type where
  spans : List HighlightedSpan
deriving DecidableEq, Repr

/-- The highlighter capability: `SyntaxHighlighter::highlight(code, path)`.
The real implementation wraps syntect and is external to the verified core;
the interleaver is verified for an arbitrary function of this shape. -/
abbrev Highlighter : Type := String → String → List HighlightedLine

/-! ## src/models/span_model.rs -/

/-- `slint::Color` restricted to what `Color::from_rgb_u8` populates. -/
structure Color : Type where
  r : Nat
  g : Nat
  b : Nat
deriving DecidableEq, Repr

/-- Value of one hex digit, `None` on a non-hex character. -/
def hexDigit (c : Char) : Option Nat :=
  if '0' ≤ c ∧ c ≤ '9' then some (c.toNat - 48)
  else if 'a' ≤ c ∧ c ≤ 'f' then some (c.toNat - 87)
  else if 'A' ≤ c ∧ c ≤ 'F' then some (c.toNat - 55)
  else none

/-- `u8::from_str_radix(two-char-slice, 16).unwrap_or(255)`: Rust's
`from_str_radix` also accepts a single leading `'+'`. -/
def hexPair (c1 c2 : Char) : Nat :=
  if c1 = '+' then (hexDigit c2).getD 255
  else
    match hexDigit c1, hexDigit c2 with
    | some h, some l => 16 * h + l
    | _, _ => 255

/-- `parse_hex_color` (src/models/span_model.rs): strip leading `'#'`s, read
three two-character hex components if at least six characters remain, default
to white.  (The source slices bytes; on the ASCII strings produced by the
highlighter byte and character indexing agree.) -/
def parse_hex_color (hex : String) : Color :=
  match hex.toList.dropWhile (fun c => c = '#') with
  | c1 :: c2 :: c3 :: c4 :: c5 :: c6 :: _ =>
    { r := hexPair c1 c2, g := hexPair c3 c4, b := hexPair c5 c6 }
  | _ => { r := 255, g := 255, b := 255 }

/-- Model for a syntax-highlighted text span (`TextSpanModel`). -/
structure TextSpanModel : Type where
  text : String
  color : Color
deriving DecidableEq, Repr

/-! ## src/models/diff_model.rs -/

/-- Model for a diff line in the UI (`DiffLineModel`). -/
structure DiffLineModel : Type where
  line_type : String
  old_line_num : String
  new_line_num : String
  content : String
  spans : List TextSpanModel
  comment_author : String
  comment_body : String
  comment_timestamp : String
  comment_is_reply : Bool
deriving DecidableEq, Repr

/-- `DiffLineType` to its UI string. -/
def lineTypeStr : DiffLineType → String
  | .Add => "add"
  | .Remove => "remove"
  | .Context => "context"
  | .Hunk => "hunk"
  | .Comment => "comment"

/-- `impl From<&DiffLine> for DiffLineModel`: stringify the kind and the line
numbers (absent number becomes the empty string), copy content and comment
payload, spans start empty. -/
def DiffLineModel.ofLine (line : DiffLine) : DiffLineModel :=
  { line_type := lineTypeStr line.line_type
    old_line_num := (line.old_line_num.map (fun n => toString n)).getD ""
    new_line_num := (line.new_line_num.map (fun n => toString n)).getD ""
    content := line.content
    spans := []
    comment_author := ((line.comment.map (fun c => c.author)).getD "")
    comment_body := ((line.comment.map (fun c => c.body)).getD "")
    comment_timestamp := ((line.comment.map (fun c => c.timestamp)).getD "")
    comment_is_reply := ((line.comment.map (fun c => c.is_reply)).getD false) }

/-! ## src/app.rs — line interleaver and commit selection -/

/-- `format_timestamp` (src/app.rs:489-500): `"YYYY-MM-DDThh:mm…"` becomes
`"YYYY-MM-DD hh:mm"` when at least 16 characters long.  (The source slices
bytes; GitHub timestamps are ASCII, where byte and character counts agree.) -/
def format_timestamp (timestamp : String) : String :=
  if 16 ≤ timestamp.length then
    (timestamp.take 10) ++ " " ++ ((timestamp.drop 11).take 5)
  else timestamp

/-- Whether a line kind is a code kind (Add/Remove/Context), the filter used
both for highlighting collection and span attachment in
`get_lines_for_file`. -/
def isCodeType : DiffLineType → Bool
  | .Add => true
  | .Remove => true
  | .Context => true
  | .Hunk => false
  | .Comment => false

/-- The synthetic hunk-header line prepended before each hunk's lines
(src/app.rs:383-392). -/
def hunkHeaderLine (h : DiffHunk) : DiffLine :=
  { line_type := .Hunk, old_line_num := none, new_line_num := none,
    content := h.header.trimRight, comment := none }

/-- The synthetic comment display line built for a matching comment
(src/app.rs:466-478). -/
def commentDisplayLine (c : PrComment) : DiffLine :=
  { line_type := .Comment, old_line_num := none, new_line_num := none,
    content := "",
    comment := some { author := c.author, body := c.body,
                      timestamp := format_timestamp c.created_at,
                      is_reply := c.in_reply_to_id.isSome } }

/-- The comment-to-line match rule (src/app.rs:453-463): the comment needs a
line number; side Right matches the line's `new_line_num`, side Left its
`old_line_num`. -/
def commentMatches (dl : DiffLine) (c : PrComment) : Bool :=
  match c.line with
  | some line =>
    match c.side with
    | .Right => dl.new_line_num = some line
    | .Left => dl.old_line_num = some line
  | none => false

/-- Conversion of one highlighter span to its UI model
(src/app.rs:435-440). -/
def spanModel (s : HighlightedSpan) : TextSpanModel :=
  { text := s.text, color := parse_hex_color s.color }

/-- The per-line comment scan of the interleaver loop (src/app.rs:447-481):
the comments of the current file that match the line just emitted, in
grouped order; no comment map means no matches. -/
def matchingComments (dl : DiffLine) (fc : Option (List PrComment)) :
    List PrComment :=
  match fc with
  | some cs => cs.filter (commentMatches dl)
  | none => []

/-- The main loop of `get_lines_for_file` (src/app.rs:424-483): walk the
flattened `diff_lines`; a code line consumes the next highlighted line (if
any) for its spans; after each emitted line the file's comments are scanned
and every match is appended as a comment display line. -/
def buildLines : List DiffLine → List HighlightedLine → Option (List PrComment)
    → List DiffLineModel
  | [], _, _ => []
  | dl :: rest, hls, fc =>
    let base := DiffLineModel.ofLine dl
    let step : DiffLineModel × List HighlightedLine :=
      if isCodeType dl.line_type then
        match hls with
        | h :: t => ({ base with spans := h.spans.map spanModel }, t)
        | [] => (base, [])
      else (base, hls)
    let commentModels : List DiffLineModel :=
      (matchingComments dl fc).map
        (fun c => DiffLineModel.ofLine (commentDisplayLine c))
    step.1 :: (commentModels ++ buildLines rest step.2 fc)

/-- The flattened line sequence of `get_lines_for_file`
(src/app.rs:374-394): the file's hunks (empty when the path is absent from
the hunk map), each prefixed by its synthetic header line. -/
def diffLinesFor (data : DiffData) (path : String) : List DiffLine :=
  ((alGet data.file_hunks path).getD []).flatMap
    (fun h => hunkHeaderLine h :: h.lines)

/-- The string handed to the highlighter (src/app.rs:396-415): the contents
of the Add/Remove/Context lines, in order, joined with newlines plus a
trailing newline. -/
def fullContentFor (data : DiffData) (path : String) : String :=
  String.intercalate "\n"
      (((diffLinesFor data path).filter
          (fun l => isCodeType l.line_type)).map (fun l => l.content))
    ++ "\n"

/-- `comments.and_then(|c| c.get(path))` (src/app.rs:377). -/
def fileCommentsFor (comments : Option FileComments) (path : String) :
    Option (List PrComment) :=
  comments.bind (fun c => alGet c path)

/-- `get_lines_for_file` (src/app.rs:365-486): look up the file's hunks
(defaulting to none), flatten them with a synthetic header before each hunk,
highlight the joined code-line contents, and interleave grouped comments. -/
def get_lines_for_file (data : DiffData) (path : String)
    (comments : Option FileComments) (highlighter : Highlighter) :
    List DiffLineModel :=
  buildLines (diffLinesFor data path)
    (highlighter (fullContentFor data path) path)
    (fileCommentsFor comments path)

/-- The comment-free projection of the interleaver loop: the display models
of the diff lines alone, each code line consuming the next highlighted line
for its spans.  `buildLines dls hls none` computes exactly this; the claims
use it to say where comment lines are inserted. -/
def lineModels : List DiffLine → List HighlightedLine → List DiffLineModel
  | [], _ => []
  | dl :: rest, hls =>
    if isCodeType dl.line_type then
      match hls with
      | h :: t =>
        { DiffLineModel.ofLine dl with spans := h.spans.map spanModel }
          :: lineModels rest t
      | [] => DiffLineModel.ofLine dl :: lineModels rest []
    else DiffLineModel.ofLine dl :: lineModels rest hls

/-- Which UI line-type strings mark code lines. -/
def isCodeModel (m : DiffLineModel) : Bool :=
  m.line_type = "add" ∨ m.line_type = "remove" ∨ m.line_type = "context"

/-- The comment-independent projection of a display line compared in claim
C3: kind, both line numbers, and content. -/
def projLine (m : DiffLineModel) : String × String × String × String :=
  (m.line_type, m.old_line_num, m.new_line_num, m.content)

/-- The data-model invariant of `Line` (spec §3) restricted to what claims
C2 and C9 need: hunk-header and comment lines carry no line numbers. -/
def WfHunks (hunks : List DiffHunk) : Prop :=
  ∀ h ∈ hunks, ∀ l ∈ h.lines,
    (l.line_type = .Hunk ∨ l.line_type = .Comment) →
      l.old_line_num = none ∧ l.new_line_num = none

instance (hunks : List DiffHunk) : Decidable (WfHunks hunks) := by
  unfold WfHunks
  infer_instance

/-- The target-resolution core of the `on_commit_selected` handler
(src/app.rs:122-185), with the external `repo` collaborator abstracted as a
`resolve` function (`Repository::resolve_ref` returning `Ok`/`Err` becomes
`Option`).  Returns the `(base, head)` pair handed to `diff_commits` together
with the grouped comment subset, or `none` where the source produces no
diff. -/
def commit_selection (idx : Int) (pr_base_ref pr_head_ref : Option String)
    (commits : List PrCommit) (comments : List PrComment)
    (resolve : String → Option String) :
    Option (String × String × FileComments) :=
  if idx < 0 then
    match pr_base_ref, pr_head_ref with
    | some base, some head =>
      match resolve base, resolve head with
      | some b, some h => some (b, h, group_comments_by_file comments)
      | _, _ => none
    | _, _ => none
  else
    match commits.get? idx.toNat with
    | some commit =>
      match commit.parent_sha with
      | some parent_sha =>
        match resolve parent_sha, resolve commit.sha with
        | some p, some c =>
          some (p, c, group_comments_by_file
            (comments.filter (fun cm => cm.original_commit_id = commit.sha)))
        | _, _ => none
      | none =>
        match pr_base_ref with
        | some base =>
          match resolve base, resolve commit.sha with
          | some b, some c =>
            some (b, c, group_comments_by_file
              (comments.filter (fun cm => cm.original_commit_id = commit.sha)))
          | _, _ => none
        | none => none
    | none => none

/-! ## Claim-facing auxiliary definitions -/

/-- The ordering that claim C1 asserts for a file's comment group, taken
from the spec's words: line ascending with a `None` line sorting last,
ties broken by id ascending.  Used only to refute the claim as stated. -/
def specNoneLastLe (a b : PrComment) : Prop :=
  match a.line, b.line with
  | some m, some n => m < n ∨ (m = n ∧ a.id ≤ b.id)
  | some _, none => True
  | none, some _ => False
  | none, none => a.id ≤ b.id

instance (a b : PrComment) : Decidable (specNoneLastLe a b) := by
  unfold specNoneLastLe
  match a.line, b.line with
  | some m, some n => exact inferInstanceAs (Decidable (_ ∨ _))
  | some _, none => exact inferInstanceAs (Decidable True)
  | none, some _ => exact inferInstanceAs (Decidable False)
  | none, none => exact inferInstanceAs (Decidable (_ ≤ _))

/-- The comment group actually stored for path `p`, the empty list when the
grouped map has no entry for `p`. -/
def groupedFor (comments : List PrComment) (p : String) : List PrComment :=
  (alGet (group_comments_by_file comments) p).getD []

/-- Comment with no line number used in the C1 counterexample. -/
def cmtNone : PrComment :=
  { id := 5, in_reply_to_id := none, path := "f", line := none,
    side := .Right, body := "b1", author := "u1", created_at := "",
    commit_id := "", original_commit_id := "" }

/-- Comment on line 1 used in the C1 counterexample. -/
def cmtOne : PrComment :=
  { id := 9, in_reply_to_id := none, path := "f", line := some 1,
    side := .Right, body := "b2", author := "u2", created_at := "",
    commit_id := "", original_commit_id := "" }


/-- Concrete one-hunk fixture used by the interleaver witnesses and the C8
scenario: `[Context old=1/new=1 "a", Add new=2 "b"]`. -/
def hunkA : DiffHunk :=
  { header := "@@ -1,1 +1,2 @@", old_start := 1, old_lines := 1,
    new_start := 1, new_lines := 2,
    lines := [
      { line_type := .Context, old_line_num := some 1,
        new_line_num := some 1, content := "a", comment := none },
      { line_type := .Add, old_line_num := none,
        new_line_num := some 2, content := "b", comment := none } ] }

/-- Diff data holding `hunkA` under path `"file.x"`. -/
def dataA : DiffData := { files := [], file_hunks := [("file.x", [hunkA])] }

/-- The C8 review comment: line 2, side Right. -/
def cmtA : PrComment :=
  { id := 1, in_reply_to_id := none, path := "file.x", line := some 2,
    side := .Right, body := "looks good", author := "rev",
    created_at := "2024-01-15T10:30:00Z", commit_id := "",
    original_commit_id := "" }

/-- Grouped comments for `dataA`. -/
def fcA : FileComments := [("file.x", [cmtA])]

/-- A highlighter producing no spans (the claims hold for any). -/
def noHl : Highlighter := fun _ _ => []

/-- Diff data with an empty hunk map. -/
def dataEmpty : DiffData := { files := [], file_hunks := [] }

/-! ## src/git/file_tree.rs — build/flatten model for C4 and C5 -/

structure Ent : Type where
  parts : List String
  full : String
  status : String
deriving DecidableEq, Repr

def entOf (f : FileChange) : Ent :=
  { parts := splitSlash f.path, full := f.path, status := f.status.as_str }

def buildStep (m : List (String × FileTreeNode)) (e : Ent) :
    List (String × FileTreeNode) :=
  insert_path m e.parts e.full e.status

def buildMap (es : List Ent) : List (String × FileTreeNode) :=
  es.foldl buildStep []

def headKey (e : Ent) : String := e.parts.headD ""

def entTail (e : Ent) : Ent :=
  { parts := e.parts.tail, full := e.full, status := e.status }

def entsSize (es : List Ent) : Nat :=
  (es.map (fun e => e.parts.length)).sum

def firstDedup : List String → List String
  | [] => []
  | a :: rest => a :: firstDedup (rest.filter (fun x => x ≠ a))
termination_by l => l.length
decreasing_by
  exact Nat.lt_succ_of_le (List.length_filter_le _ _)

def defaultEnt : Ent := { parts := [], full := "", status := "" }

def specMap (es : List Ent) : List (String × FileTreeNode) :=
  let es1 := es.filter (fun e => e.parts ≠ [])
  (firstDedup (es1.map headKey)).attach.map (fun x =>
    (x.1,
      let sub := es1.filter (fun e => headKey e = x.1)
      if sub.all (fun e => e.parts.length == 1) then
        FileTreeNode.mk x.1 (sub.getLastD defaultEnt).full false []
          (some (sub.getLastD defaultEnt).status)
      else
        FileTreeNode.mk x.1 x.1 true
          ((specMap (sub.map entTail)).map (fun kv => kv.2)) none))
termination_by entsSize es
decreasing_by
  have hmemdedup : ∀ (l : List String) (y : String), y ∈ firstDedup l → y ∈ l := by
    intro l
    induction l using firstDedup.induct with
    | case1 =>
      intro y h
      rw [firstDedup] at h
      exact absurd h (List.not_mem_nil y)
    | case2 a rest ih =>
      intro y h
      rw [firstDedup] at h
      rcases List.mem_cons.mp h with rfl | h2
      · exact List.mem_cons_self _ _
      · exact List.mem_cons_of_mem _ (List.mem_of_mem_filter (ih y h2))
  have hle : ∀ l : List Ent, entsSize (l.map entTail) ≤ entsSize l := by
    intro l
    induction l with
    | nil => simp [entsSize]
    | cons a t ih =>
      simp only [entsSize, List.map_cons, List.sum_cons] at ih ⊢
      have : (entTail a).parts.length ≤ a.parts.length := by
        simp [entTail, List.length_tail]
      omega
  have hstrict : ∀ l : List Ent, (∀ e ∈ l, e.parts ≠ []) → l ≠ [] →
      entsSize (l.map entTail) < entsSize l := by
    intro l hne hnil
    cases l with
    | nil => exact absurd rfl hnil
    | cons a t =>
      simp only [entsSize, List.map_cons, List.sum_cons]
      have h1 : (entTail a).parts.length < a.parts.length := by
        have := hne a (List.mem_cons_self a t)
        simp [entTail, List.length_tail]
        cases h : a.parts with
        | nil => exact absurd h this
        | cons x xs => simp [h]
      have h2 := hle t
      simp only [entsSize] at h2
      omega
  have hx := hmemdedup _ _ x.2
  simp only [List.mem_map] at hx
  obtain ⟨e0, he0, hk⟩ := hx
  have hs1 : entsSize ((es.filter (fun e => e.parts ≠ [])).filter
      (fun e => headKey e = x.1)) ≤ entsSize es := by
    have hsl : ((es.filter (fun e => e.parts ≠ [])).filter
        (fun e => headKey e = x.1)).Sublist es :=
      ((es.filter (fun e => e.parts ≠ [])).filter_sublist).trans
        (es.filter_sublist)
    unfold entsSize
    exact List.Sublist.sum_le_sum (hsl.map (fun e => e.parts.length))
      (fun i _ => Nat.zero_le i)
  have hsub0 : e0 ∈ (es.filter (fun e => e.parts ≠ [])).filter
      (fun e => headKey e = x.1) :=
    List.mem_filter.mpr ⟨he0, by simp [hk]⟩
  have hne0 : ∀ e ∈ (es.filter (fun e => e.parts ≠ [])).filter
      (fun e => headKey e = x.1), e.parts ≠ [] := by
    intro e he
    have := (List.mem_filter.mp he).1
    have := (List.mem_filter.mp this).2
    simpa using this
  calc entsSize ((((es.filter (fun e => e.parts ≠ [])).filter
          (fun e => headKey e = x.1))).map entTail)
      < entsSize ((es.filter (fun e => e.parts ≠ [])).filter
          (fun e => headKey e = x.1)) :=
        hstrict _ hne0 (List.ne_nil_of_mem hsub0)
    _ ≤ entsSize es := hs1

def specNodeOf (k : String) (sub : List Ent) : FileTreeNode :=
  if sub.all (fun e => e.parts.length == 1) then
    .mk k (sub.getLastD defaultEnt).full false []
      (some (sub.getLastD defaultEnt).status)
  else
    .mk k k true ((specMap (sub.map entTail)).map (fun kv => kv.2)) none

def divB : List String → List String → Bool
  | [], _ => false
  | _, [] => false
  | a :: p, b :: q => if a = b then divB p q else true

def divCiB : List String → List String → Bool
  | [], _ => false
  | _, [] => false
  | a :: p, b :: q => if a = b then divCiB p q else strToLower a ≠ strToLower b

def entRel5 (a b : Ent) : Prop := a.parts = b.parts ∨ divB a.parts b.parts = true

def entRelCi (a b : Ent) : Prop := divCiB a.parts b.parts = true

def flattenOne (n : FileTreeNode) (depth : Int) : List FlatFileEntry :=
  match n with
  | .mk nm p f cs st =>
    { name := nm, path := p, depth := depth, is_folder := f,
      is_expanded := true, status := st.getD "modified" }
      :: (if f then flatten_tree cs (depth + 1) else [])

def entRelDiv (a b : Ent) : Prop := divB a.parts b.parts = true

def pairOf (e : Ent) : String × String := (e.full, e.status)

def leafPairsOne (n : FileTreeNode) (d : Int) : List (String × String) :=
  ((flattenOne n d).filter (fun x => !x.is_folder)).map (fun x => (x.path, x.status))

def leafPairs (ns : List FileTreeNode) (d : Int) : List (String × String) :=
  ((flatten_tree ns d).filter (fun x => !x.is_folder)).map (fun x => (x.path, x.status))

def fcDiv (f g : FileChange) : Prop :=
  divB (splitSlash f.path) (splitSlash g.path) = true

instance : DecidableRel fcDiv := fun a b => by
  unfold fcDiv
  infer_instance

/-- The ordering invariant the UI relies on: every sibling list is sorted by
`nodeLe` (folders first, then case-insensitive by name), recursively. -/
inductive SortedForest : List FileTreeNode → Prop where
  | nil : SortedForest []
  | cons {n : FileTreeNode} {ns : List FileTreeNode} :
      (∀ m ∈ ns, nodeLe n m = true) → SortedForest n.children →
      SortedForest ns → SortedForest (n :: ns)

def fcCiDiv (f g : FileChange) : Prop :=
  divCiB (splitSlash f.path) (splitSlash g.path) = true

instance : DecidableRel fcCiDiv := fun a b => by
  unfold fcCiDiv
  infer_instance

/-- A path made of ASCII characters only: the domain on which `strToLower`
is exactly Rust `str::to_lowercase` (see `strToLower`). -/
def asciiPath (f : FileChange) : Prop :=
  ∀ c ∈ f.path.data, c.toNat < 128

instance (f : FileChange) : Decidable (asciiPath f) := by
  unfold asciiPath
  infer_instance

/-! ## THEOREMS -/

/-! ### Comparator bridge lemmas -/

theorem natCmp_eq_gt {a b : Nat} : natCmp a b = .gt ↔ b < a := by
  unfold natCmp
  split
  · simp
    omega
  · split <;> simp <;> omega

theorem natCmp_eq_eq {a b : Nat} : natCmp a b = .eq ↔ a = b := by
  unfold natCmp
  split
  · simp
    omega
  · split <;> simp <;> omega

theorem natCmp_eq_lt {a b : Nat} : natCmp a b = .lt ↔ a < b := by
  unfold natCmp
  split
  · simp
    omega
  · split <;> simp <;> omega

theorem optNatCmp_eq_eq {x y : Option Nat} : optNatCmp x y = .eq ↔ x = y := by
  cases x <;> cases y <;> simp [optNatCmp, natCmp_eq_eq]

theorem commentLe_iff {a b : PrComment} :
    commentLe a b = true ↔
      (optNatCmp a.line b.line = .lt ∨ (a.line = b.line ∧ a.id ≤ b.id)) := by
  have hb : commentLe a b = true ↔ commentCmp a b ≠ .gt := by
    simp [commentLe]
  rw [hb]
  unfold commentCmp
  rcases h : optNatCmp a.line b.line with _ | _ | _
  · simp [h]
  · have hl : a.line = b.line := optNatCmp_eq_eq.mp h
    simp only [h]
    constructor
    · intro hgt
      refine Or.inr ⟨hl, ?_⟩
      by_contra hlt
      exact hgt (natCmp_eq_gt.mpr (by omega))
    · rintro (hbad | ⟨_, hle⟩)
      · exact Ordering.noConfusion hbad
      · intro hgt
        have := natCmp_eq_gt.mp hgt
        omega
  · simp only [h]
    constructor
    · intro hgt
      exact absurd rfl hgt
    · rintro (hbad | ⟨hle, _⟩)
      · exact Ordering.noConfusion hbad
      · have heq := optNatCmp_eq_eq.mpr hle
        rw [h] at heq
        exact Ordering.noConfusion heq

theorem optNatCmp_gt_iff_lt {x y : Option Nat} :
    optNatCmp x y = .gt ↔ optNatCmp y x = .lt := by
  cases x <;> cases y <;> simp [optNatCmp]
  constructor
  · intro h
    rw [natCmp_eq_gt] at h
    unfold natCmp
    split
    · rfl
    · omega
  · intro h
    rw [natCmp_eq_gt]
    unfold natCmp at h
    split at h
    · omega
    · split at h <;> simp_all

theorem commentLe_total (a b : PrComment) :
    (commentLe a b || commentLe b a) = true := by
  rcases h : optNatCmp a.line b.line with _ | _ | _
  · simp [commentLe, commentCmp, h]
  · have hba : optNatCmp b.line a.line = .eq := by
      rw [optNatCmp_eq_eq] at h ⊢
      exact h.symm
    simp only [commentLe, commentCmp, h, hba, Bool.or_eq_true,
      decide_eq_true_eq]
    by_cases hid : a.id ≤ b.id
    · exact Or.inl (fun hgt => by have := natCmp_eq_gt.mp hgt; omega)
    · exact Or.inr (fun hgt => by have := natCmp_eq_gt.mp hgt; omega)
  · have hba : optNatCmp b.line a.line = .lt := optNatCmp_gt_iff_lt.mp h
    simp [commentLe, commentCmp, h, hba]

theorem commentLe_trans (a b c : PrComment)
    (h1 : commentLe a b = true) (h2 : commentLe b c = true) :
    commentLe a c = true := by
  rw [commentLe_iff] at *
  rcases h1 with h1 | ⟨h1e, h1i⟩ <;> rcases h2 with h2 | ⟨h2e, h2i⟩
  · exact Or.inl (by
      rcases ha : a.line with _ | x <;> rcases hb : b.line with _ | y <;>
        rcases hc : c.line with _ | z <;>
        simp_all [optNatCmp, natCmp_eq_lt] <;> omega)
  · exact Or.inl (h2e ▸ h1)
  · exact Or.inl (h1e ▸ h2)
  · exact Or.inr ⟨h1e.trans h2e, Nat.le_trans h1i h2i⟩

/-! ### Grouping lemmas (C1) -/

theorem alGet_fcPush (m : FileComments) (c : PrComment) (p : String) :
    (alGet (fcPush m c) p).getD [] =
      (alGet m p).getD [] ++ (if c.path = p then [c] else []) := by
  induction m with
  | nil =>
    by_cases h : c.path = p <;> simp [fcPush, alGet, h]
  | cons kv rest ih =>
    obtain ⟨k, cs⟩ := kv
    by_cases hk : k = c.path
    · by_cases hp : k = p
      · have hcp : c.path = p := hk.symm.trans hp
        simp [fcPush, alGet, hk, hp, hcp]
      · have hcp : ¬ c.path = p := fun h => hp (hk.trans h)
        simp [fcPush, alGet, hk, hp, hcp]
    · by_cases hp : k = p
      · have hcp : ¬ c.path = p := fun h => hk (hp.trans h.symm)
        have hpc : ¬ p = c.path := fun h => hcp h.symm
        simp [fcPush, alGet, hk, hp, hcp, hpc]
      · simp [fcPush, alGet, hk, hp, ih]

theorem alGet_foldl_fcPush (cs : List PrComment) :
    ∀ (m : FileComments) (p : String),
      (alGet (cs.foldl fcPush m) p).getD [] =
        (alGet m p).getD [] ++ cs.filter (fun c => c.path = p) := by
  induction cs with
  | nil => simp
  | cons c rest ih =>
    intro m p
    rw [List.foldl_cons, ih (fcPush m c) p, alGet_fcPush]
    by_cases h : c.path = p <;> simp [h]

theorem alGet_group (comments : List PrComment) (p : String) :
    alGet (group_comments_by_file comments) p
      = (alGet (comments.foldl fcPush []) p).map
          (fun l => l.mergeSort commentLe) := by
  unfold group_comments_by_file
  generalize comments.foldl fcPush [] = m
  induction m with
  | nil => rfl
  | cons kv rest ih =>
    by_cases h : kv.1 = p <;> simp [alGet, h, ih]

theorem groupedFor_eq (comments : List PrComment) (p : String) :
    groupedFor comments p =
      (comments.filter (fun c => c.path = p)).mergeSort commentLe := by
  unfold groupedFor
  rw [alGet_group]
  rcases h : alGet (comments.foldl fcPush []) p with _ | l
  · have h2 := alGet_foldl_fcPush comments [] p
    rw [h] at h2
    simp [alGet] at h2
    have hfil : comments.filter (fun c => c.path = p) = [] := by
      simp [List.filter_eq_nil_iff]
      exact h2
    simp [hfil]
  · have h2 := alGet_foldl_fcPush comments [] p
    rw [h] at h2
    simp [alGet] at h2
    simp [h2]

/-- C1 (amended): `group_comments_by_file` partitions the comments by path
(each file's stored group is a permutation of the input comments with that
path, and a path with no entry has no comments), and within each group
orders them by line ascending with comments whose line is `None` placed
FIRST (the derived `Option<u32>` order), remaining ties broken by id
ascending. -/
theorem c1_group_comments_partition_and_order
    (comments : List PrComment) (p : String) :
    (groupedFor comments p).Perm
        (comments.filter (fun c => c.path = p)) ∧
    (groupedFor comments p).Pairwise
        (fun a b => optNatCmp a.line b.line = .lt ∨
          (a.line = b.line ∧ a.id ≤ b.id)) := by
  rw [groupedFor_eq]
  refine ⟨List.mergeSort_perm _ _, ?_⟩
  have hs := @List.sorted_mergeSort _ commentLe
    commentLe_trans commentLe_total (comments.filter (fun c => c.path = p))
  exact hs.imp (fun h => commentLe_iff.mp h)

/-- C1 counterexample: the claim as stated — a comment whose line is `None`
sorts after comments with a line — is false.  With one line-less comment
(id 5) and one comment on line 1 (id 9) on the same file, the stored group
places the line-less comment first, violating the claimed order. -/
theorem c1_counterexample :
    alGet (group_comments_by_file [cmtNone, cmtOne]) "f"
        = some [cmtNone, cmtOne] ∧
      cmtNone.line = none ∧ cmtOne.line = some 1 ∧
      ¬ ([cmtNone, cmtOne].Pairwise specNoneLastLe) := by
  have h : ([cmtNone, cmtOne] : List PrComment).mergeSort commentLe
      = [cmtNone, cmtOne] := List.mergeSort_of_sorted (by decide)
  have h2 : ([cmtNone, cmtOne] : List PrComment).foldl fcPush []
      = [("f", [cmtNone, cmtOne])] := by decide
  refine ⟨?_, by decide, by decide, by decide⟩
  unfold group_comments_by_file
  rw [h2]
  simp [alGet, h]

/-! ### DiffTarget.parse lemmas (C7) -/

theorem stripHash_of_ne_hash {s : String} {c : Char} {rest : List Char}
    (hl : s.toList = c :: rest) (hc : c ≠ '#') : stripHash s = s := by
  unfold stripHash
  rw [hl]
  split
  · rename_i heq
    injection heq with h1 h2
    exact absurd h1 hc
  · rfl

theorem stripHash_nil {s : String} (hl : s.toList = []) : stripHash s = s := by
  unfold stripHash
  rw [hl]

theorem stripHash_hash {s : String} {rest : List Char}
    (hl : s.toList = '#' :: rest) : stripHash s = String.mk rest := by
  unfold stripHash
  rw [hl]
  split
  · rename_i heq
    injection heq with h1 h2
    rw [h2]
  · rename_i hne
    exact absurd rfl (hne rest)

theorem parse_some (s : String) :
    DiffTarget.parse (some s) =
      match parseU32 (stripHash s) with
      | some n =>
        if s.toList.head? = some '#' ∨ s.toList.all Char.isDigit then
          .PullRequest n
        else .Ref s
      | none => .Ref s := rfl

/-- C7 (amended): a target string that is all ASCII digits and accepted by
`u32` parsing (value at most `u32::MAX`) selects the pull-request target
with that value; so does `#` followed by anything `u32::from_str` accepts
(digits, optionally with a leading `+`); every string for which neither
rule fires — including all-digit strings whose value exceeds `u32::MAX` —
names a git ref. -/
theorem c7_parse_characterisation (s : String) :
    (∀ n, s.toList.all Char.isDigit = true → parseU32 s = some n →
      DiffTarget.parse (some s) = .PullRequest n) ∧
    (∀ n rest, s.toList = '#' :: rest → parseU32 (String.mk rest) = some n →
      DiffTarget.parse (some s) = .PullRequest n) ∧
    ((s.toList.all Char.isDigit = true → parseU32 s = none) →
      (∀ rest, s.toList = '#' :: rest → parseU32 (String.mk rest) = none) →
      DiffTarget.parse (some s) = .Ref s) := by
  refine ⟨?_, ?_, ?_⟩
  · intro n hdig hparse
    rw [parse_some]
    rcases hl : s.toList with _ | ⟨c, rest⟩
    · exfalso
      rw [parseU32] at hparse
      rw [hl] at hparse
      simp at hparse
    · rw [hl] at hdig
      have hc : c ≠ '#' := by
        intro h
        rw [h] at hdig
        simp at hdig
      rw [stripHash_of_ne_hash hl hc, hparse]
      simp [hdig]
  · intro n rest hl hparse
    have hd : s.data = '#' :: rest := hl
    rw [parse_some, stripHash_hash hl, hparse]
    simp [hd]
  · intro hdig hhash
    rw [parse_some]
    rcases hl : s.toList with _ | ⟨c, rest⟩
    · have hp : parseU32 s = none := by
        rw [parseU32]
        rw [hl]
        simp
      rw [stripHash_nil hl, hp]
    · by_cases hc : c = '#'
      · subst hc
        rw [stripHash_hash hl, hhash rest hl]
      · rw [stripHash_of_ne_hash hl hc]
        rcases hp : parseU32 s with _ | n
        · rfl
        · have hnd : ¬ (c :: rest).all Char.isDigit = true := by
            intro hall
            have hall2 : s.toList.all Char.isDigit = true := by
              rw [hl]
              exact hall
            rw [hdig hall2] at hp
            exact Option.noConfusion hp
          have hnh : ¬ ((c :: rest).head? = some '#') := by
            simp
            exact hc
          simp only []
          rw [if_neg]
          rintro (h | h)
          · exact hnh h
          · exact hnd h

/-- C7 witness: the characterisation applied at `"42"`, `"#42"` and
`"main"`. -/
theorem c7_witness :
    DiffTarget.parse (some "42") = .PullRequest 42 ∧
    DiffTarget.parse (some "#42") = .PullRequest 42 ∧
    DiffTarget.parse (some "main") = .Ref "main" :=
  ⟨(c7_parse_characterisation "42").1 42 (by decide) (by decide),
   (c7_parse_characterisation "#42").2.1 42 ['4', '2'] (by decide) (by decide),
   (c7_parse_characterisation "main").2.2 (by decide)
     (fun rest h => by
       have hm : "main".toList = ['m', 'a', 'i', 'n'] := by decide
       rw [hm] at h
       injection h with h1 h2
       exact absurd h1 (by decide))⟩

/-- C7 counterexample: the claim as stated is false twice over: the
all-digit string `"4294967296"` (just past `u32::MAX`) is parsed as a ref,
and `"#+42"` — not of the form `#<decimal digits>` — is parsed as a pull
request. -/
theorem c7_counterexample :
    ("4294967296".toList.all Char.isDigit = true ∧
      DiffTarget.parse (some "4294967296") = .Ref "4294967296") ∧
    (("#+42".toList.drop 1).all Char.isDigit = false ∧
      DiffTarget.parse (some "#+42") = .PullRequest 42) := by
  decide

theorem lineTypeStr_code (t : DiffLineType) :
    (lineTypeStr t = "add" ∨ lineTypeStr t = "remove" ∨
      lineTypeStr t = "context") ↔ isCodeType t = true := by
  cases t <;> simp [lineTypeStr, isCodeType]

theorem isCodeModel_ofLine (dl : DiffLine) :
    isCodeModel (DiffLineModel.ofLine dl) = isCodeType dl.line_type := by
  cases h : dl.line_type <;>
    simp [isCodeModel, DiffLineModel.ofLine, lineTypeStr, h, isCodeType]

theorem buildLines_none (dls : List DiffLine) :
    ∀ hls : List HighlightedLine,
      buildLines dls hls none = lineModels dls hls := by
  induction dls with
  | nil => intro hls; rfl
  | cons dl rest ih =>
    intro hls
    by_cases hcode : isCodeType dl.line_type
    · cases hls with
      | nil => simp [buildLines, lineModels, hcode, matchingComments, ih]
      | cons h t => simp [buildLines, lineModels, hcode, matchingComments, ih]
    · simp [buildLines, lineModels, hcode, matchingComments, ih]

theorem buildLines_eq_zip_flatMap (dls : List DiffLine) :
    ∀ (hls : List HighlightedLine) (fc : Option (List PrComment)),
    buildLines dls hls fc =
      ((lineModels dls hls).zip dls).flatMap
        (fun p => p.1 :: (matchingComments p.2 fc).map
          (fun c => DiffLineModel.ofLine (commentDisplayLine c))) := by
  induction dls with
  | nil => intro hls fc; rfl
  | cons dl rest ih =>
    intro hls fc
    by_cases hcode : isCodeType dl.line_type
    · cases hls with
      | nil => simp [buildLines, lineModels, hcode, ih]
      | cons h t => simp [buildLines, lineModels, hcode, ih]
    · simp [buildLines, lineModels, hcode, ih]

theorem commentMatches_true {dl : DiffLine} {c : PrComment}
    (h : commentMatches dl c = true) :
    c.line ≠ none ∧
    (c.side = .Right → dl.new_line_num = c.line) ∧
    (c.side = .Left → dl.old_line_num = c.line) := by
  unfold commentMatches at h
  rcases hline : c.line with _ | line
  · rw [hline] at h
    exact Bool.noConfusion h
  · rw [hline] at h
    rcases hside : c.side with _ | _ <;> rw [hside] at h <;>
      simp at h <;> simp [hside, h]

theorem mem_matchingComments {dl : DiffLine} {c : PrComment}
    {fc : Option (List PrComment)} (h : c ∈ matchingComments dl fc) :
    commentMatches dl c = true := by
  unfold matchingComments at h
  rcases fc with _ | cs
  · simp at h
  · simp at h
    exact h.2

theorem commentMatches_code {dl : DiffLine} {c : PrComment}
    (hwf : (dl.line_type = .Hunk ∨ dl.line_type = .Comment) →
      dl.old_line_num = none ∧ dl.new_line_num = none)
    (h : commentMatches dl c = true) :
    isCodeType dl.line_type = true := by
  rcases ht : dl.line_type with _ | _ | _ | _ | _ <;> simp [isCodeType]
  all_goals (
    obtain ⟨ho, hn⟩ := hwf (by simp [ht])
    obtain ⟨hne, hr, hl⟩ := commentMatches_true h
    rcases hs : c.side with _ | _
    · exact hne ((hl hs).symm.trans ho)
    · exact hne ((hr hs).symm.trans hn))

theorem buildLines_cons_not_code {dl : DiffLine} (rest : List DiffLine)
    (hls : List HighlightedLine) (fc : Option (List PrComment))
    (h : isCodeType dl.line_type = false) :
    buildLines (dl :: rest) hls fc =
      DiffLineModel.ofLine dl ::
        ((matchingComments dl fc).map
          (fun c => DiffLineModel.ofLine (commentDisplayLine c))
          ++ buildLines rest hls fc) := by
  simp [buildLines, h]

theorem buildLines_cons_code_nil {dl : DiffLine} (rest : List DiffLine)
    (fc : Option (List PrComment)) (h : isCodeType dl.line_type = true) :
    buildLines (dl :: rest) [] fc =
      DiffLineModel.ofLine dl ::
        ((matchingComments dl fc).map
          (fun c => DiffLineModel.ofLine (commentDisplayLine c))
          ++ buildLines rest [] fc) := by
  simp [buildLines, h]

theorem buildLines_cons_code_cons {dl : DiffLine} (rest : List DiffLine)
    (hl : HighlightedLine) (hls : List HighlightedLine)
    (fc : Option (List PrComment)) (h : isCodeType dl.line_type = true) :
    buildLines (dl :: rest) (hl :: hls) fc =
      { DiffLineModel.ofLine dl with spans := hl.spans.map spanModel } ::
        ((matchingComments dl fc).map
          (fun c => DiffLineModel.ofLine (commentDisplayLine c))
          ++ buildLines rest hls fc) := by
  simp [buildLines, h]

theorem filter_commentModels (dl : DiffLine) (fc : Option (List PrComment)) :
    List.filter isCodeModel
      ((matchingComments dl fc).map
        (fun c => DiffLineModel.ofLine (commentDisplayLine c))) = [] := by
  rw [List.filter_eq_nil_iff]
  intro m hm
  simp at hm
  obtain ⟨c, _, rfl⟩ := hm
  simp [isCodeModel_ofLine, commentDisplayLine, isCodeType]

theorem line_type_withSpans (dl : DiffLine) (sp : List TextSpanModel) :
    ({ DiffLineModel.ofLine dl with spans := sp } : DiffLineModel).line_type
      = (DiffLineModel.ofLine dl).line_type := rfl

theorem isCodeModel_withSpans (dl : DiffLine) (sp : List TextSpanModel) :
    isCodeModel { DiffLineModel.ofLine dl with spans := sp }
      = isCodeType dl.line_type := by
  rw [show isCodeModel { DiffLineModel.ofLine dl with spans := sp }
      = isCodeModel (DiffLineModel.ofLine dl) from rfl]
  exact isCodeModel_ofLine dl

theorem projLine_withSpans (dl : DiffLine) (sp : List TextSpanModel) :
    projLine { DiffLineModel.ofLine dl with spans := sp }
      = projLine (DiffLineModel.ofLine dl) := rfl

theorem buildLines_filter_proj (dls : List DiffLine) :
    ∀ (hls : List HighlightedLine) (fc : Option (List PrComment)),
    ((buildLines dls hls fc).filter isCodeModel).map projLine =
      ((dls.filter (fun l => isCodeType l.line_type)).map
        (fun dl => projLine (DiffLineModel.ofLine dl))) := by
  induction dls with
  | nil => intro hls fc; rfl
  | cons dl rest ih =>
    intro hls fc
    by_cases hcode : isCodeType dl.line_type
    · cases hls with
      | nil =>
        rw [buildLines_cons_code_nil rest fc hcode, List.filter_cons,
          List.filter_append, filter_commentModels, List.nil_append,
          isCodeModel_ofLine, if_pos hcode, List.map_cons, ih,
          List.filter_cons, if_pos hcode, List.map_cons]
      | cons hl t =>
        rw [buildLines_cons_code_cons rest hl t fc hcode, List.filter_cons,
          List.filter_append, filter_commentModels, List.nil_append,
          isCodeModel_withSpans, if_pos hcode, List.map_cons,
          projLine_withSpans, ih,
          List.filter_cons, if_pos hcode, List.map_cons]
    · have hcode' : isCodeType dl.line_type = false := by
        simp at hcode
        exact hcode
      rw [buildLines_cons_not_code rest hls fc hcode', List.filter_cons,
        List.filter_append, filter_commentModels, List.nil_append,
        isCodeModel_ofLine, hcode', if_neg (by simp), ih,
        List.filter_cons, hcode', if_neg (by simp)]

theorem buildLines_filter_fc_irrelevant (dls : List DiffLine) :
    ∀ (hls : List HighlightedLine) (fc : Option (List PrComment)),
    (buildLines dls hls fc).filter isCodeModel =
      (buildLines dls hls none).filter isCodeModel := by
  induction dls with
  | nil => intro hls fc; rfl
  | cons dl rest ih =>
    intro hls fc
    by_cases hcode : isCodeType dl.line_type
    · cases hls with
      | nil =>
        rw [buildLines_cons_code_nil rest fc hcode,
          buildLines_cons_code_nil rest none hcode]
        simp only [List.filter_cons, List.filter_append,
          filter_commentModels, List.nil_append, ih [] fc]
      | cons hl t =>
        rw [buildLines_cons_code_cons rest hl t fc hcode,
          buildLines_cons_code_cons rest hl t none hcode]
        simp only [List.filter_cons, List.filter_append,
          filter_commentModels, List.nil_append, ih t fc]
    · have hcode' : isCodeType dl.line_type = false := by
        simp at hcode
        exact hcode
      rw [buildLines_cons_not_code rest hls fc hcode',
        buildLines_cons_not_code rest hls none hcode']
      simp only [List.filter_cons, List.filter_append,
        filter_commentModels, List.nil_append, ih hls fc]

theorem buildLines_spans (dls : List DiffLine) :
    ∀ (hls : List HighlightedLine) (fc : Option (List PrComment)),
    ((buildLines dls hls fc).filter isCodeModel).map
        (fun m => m.spans) =
      (hls.take ((dls.filter (fun l => isCodeType l.line_type)).length)).map
          (fun h => h.spans.map spanModel)
        ++ List.replicate
            ((dls.filter (fun l => isCodeType l.line_type)).length
              - hls.length) [] := by
  induction dls with
  | nil =>
    intro hls fc
    rw [show ∀ h f, buildLines [] h f = [] from fun _ _ => rfl]
    simp
  | cons dl rest ih =>
    intro hls fc
    by_cases hcode : isCodeType dl.line_type
    · cases hls with
      | nil =>
        rw [buildLines_cons_code_nil rest fc hcode, List.filter_cons,
          List.filter_append, filter_commentModels, List.nil_append,
          isCodeModel_ofLine, if_pos hcode, List.map_cons, ih [] fc,
          List.filter_cons, if_pos hcode]
        simp [DiffLineModel.ofLine, List.replicate_succ]
      | cons hl t =>
        rw [buildLines_cons_code_cons rest hl t fc hcode, List.filter_cons,
          List.filter_append, filter_commentModels, List.nil_append,
          isCodeModel_withSpans, if_pos hcode, List.map_cons, ih t fc,
          List.filter_cons, if_pos hcode]
        simp [List.take_succ_cons]
    · have hcode' : isCodeType dl.line_type = false := by
        simp at hcode
        exact hcode
      rw [buildLines_cons_not_code rest hls fc hcode', List.filter_cons,
        List.filter_append, filter_commentModels, List.nil_append,
        isCodeModel_ofLine, hcode', if_neg (by simp), ih hls fc,
        List.filter_cons, hcode', if_neg (by simp)]

theorem wf_diffLinesFor {data : DiffData} {path : String}
    (hwf : WfHunks ((alGet data.file_hunks path).getD [])) :
    ∀ dl ∈ diffLinesFor data path,
      (dl.line_type = .Hunk ∨ dl.line_type = .Comment) →
        dl.old_line_num = none ∧ dl.new_line_num = none := by
  intro dl hdl
  unfold diffLinesFor at hdl
  simp at hdl
  obtain ⟨h, hh, hmem⟩ := hdl
  rcases hmem with rfl | hmem
  · intro _
    exact ⟨rfl, rfl⟩
  · exact fun ht => hwf h hh dl hmem ht

/-- C2 (as stated, assuming the spec's `Line` data-model invariant for the
input hunk lines): the interleaver's output is the comment-free line models
with, immediately after each line, the comment display lines of exactly the
comments matching it; a matching comment always has a line number, the
matched line is a code line, a side-Right comment matches only lines whose
`new_line_num` equals its line and a side-Left comment only lines whose
`old_line_num` equals its line; a comment whose line is `None` never
matches, so it is never emitted. -/
theorem c2_comment_matching (data : DiffData) (path : String)
    (comments : Option FileComments) (hl : Highlighter)
    (hwf : WfHunks ((alGet data.file_hunks path).getD [])) :
    (get_lines_for_file data path comments hl =
      ((lineModels (diffLinesFor data path)
          (hl (fullContentFor data path) path)).zip
          (diffLinesFor data path)).flatMap
        (fun p => p.1 ::
          (matchingComments p.2 (fileCommentsFor comments path)).map
            (fun c => DiffLineModel.ofLine (commentDisplayLine c)))) ∧
    (∀ dl ∈ diffLinesFor data path,
      ∀ c ∈ matchingComments dl (fileCommentsFor comments path),
        c.line ≠ none ∧ isCodeType dl.line_type = true ∧
        (c.side = .Right → dl.new_line_num = c.line) ∧
        (c.side = .Left → dl.old_line_num = c.line)) ∧
    (∀ c : PrComment, c.line = none →
      ∀ dl, c ∉ matchingComments dl (fileCommentsFor comments path)) := by
  refine ⟨buildLines_eq_zip_flatMap _ _ _, ?_, ?_⟩
  · intro dl hdl c hc
    have hm := mem_matchingComments hc
    obtain ⟨hne, hr, hlft⟩ := commentMatches_true hm
    exact ⟨hne, commentMatches_code (wf_diffLinesFor hwf dl hdl) hm, hr, hlft⟩
  · intro c hnone dl hc
    have hm := mem_matchingComments hc
    obtain ⟨hne, _, _⟩ := commentMatches_true hm
    exact hne hnone


theorem diffLinesFor_filter_code (data : DiffData) (path : String) :
    (diffLinesFor data path).filter (fun l => isCodeType l.line_type)
      = (((alGet data.file_hunks path).getD []).flatMap
          (fun h => h.lines)).filter (fun l => isCodeType l.line_type) := by
  unfold diffLinesFor
  generalize (alGet data.file_hunks path).getD [] = hunks
  induction hunks with
  | nil => rfl
  | cons h hs ih =>
    simp only [List.flatMap_cons, List.filter_append, ih,
      List.filter_cons]
    rw [if_neg (by simp [hunkHeaderLine, isCodeType])]

/-- C3 (amended with a nonempty hunk sequence): when the file has at least
one hunk the output begins with a HunkHeader display line; the code
(Add/Remove/Context) lines appear in the output in the same relative order
(and with the same kind, numbers and content) as in the concatenated input
hunks; and attaching comments never changes the sequence of code display
lines. -/
theorem c3_interleaver_order (data : DiffData) (path : String)
    (comments : Option FileComments) (hl : Highlighter)
    (hne : (alGet data.file_hunks path).getD [] ≠ []) :
    ((get_lines_for_file data path comments hl).head?.map
        (fun m => m.line_type)) = some "hunk" ∧
    (((get_lines_for_file data path comments hl).filter
        isCodeModel).map projLine
      = ((((alGet data.file_hunks path).getD []).flatMap
            (fun h => h.lines)).filter
          (fun l => isCodeType l.line_type)).map
          (fun dl => projLine (DiffLineModel.ofLine dl))) ∧
    ((get_lines_for_file data path comments hl).filter isCodeModel
      = (get_lines_for_file data path none hl).filter isCodeModel) := by
  refine ⟨?_, ?_, ?_⟩
  · obtain ⟨hk, t, hhk⟩ : ∃ hk t,
        (alGet data.file_hunks path).getD [] = hk :: t := by
      rcases h : (alGet data.file_hunks path).getD [] with _ | ⟨hk, t⟩
      · exact absurd h hne
      · exact ⟨hk, t, rfl⟩
    have hdl : diffLinesFor data path = hunkHeaderLine hk ::
        (hk.lines ++ t.flatMap (fun h => hunkHeaderLine h :: h.lines)) := by
      unfold diffLinesFor
      rw [hhk]
      simp [List.flatMap_cons]
    unfold get_lines_for_file
    rw [hdl, buildLines_cons_not_code _ _ _
      (by simp [hunkHeaderLine, isCodeType])]
    simp [DiffLineModel.ofLine, hunkHeaderLine, lineTypeStr]
  · unfold get_lines_for_file
    rw [buildLines_filter_proj, diffLinesFor_filter_code]
  · unfold get_lines_for_file
    exact buildLines_filter_fc_irrelevant _ _ _

/-- C3 counterexample: the claim as stated quantifies over every hunk
sequence, but on the empty hunk sequence (a path absent from the hunk map)
the interleaver's output is empty and does not begin with a HunkHeader
line. -/
theorem c3_counterexample :
    get_lines_for_file dataEmpty "a" (some fcA) noHl = [] ∧
    ¬ (((get_lines_for_file dataEmpty "a" (some fcA) noHl).head?.map
        (fun m => m.line_type)) = some "hunk") := by
  refine ⟨rfl, ?_⟩
  intro h
  rw [show get_lines_for_file dataEmpty "a" (some fcA) noHl = []
    from rfl] at h
  exact Option.noConfusion h

/-- C3 witness: the amended theorem applied to a one-hunk file. -/
theorem c3_witness :
    (alGet dataA.file_hunks "file.x").getD [] ≠ [] ∧
    ((get_lines_for_file dataA "file.x" (some fcA) noHl).head?.map
        (fun m => m.line_type)) = some "hunk" :=
  ⟨by decide,
   (c3_interleaver_order dataA "file.x" (some fcA) noHl (by decide)).1⟩

theorem lineTypeStr_hunk {t : DiffLineType} :
    lineTypeStr t = "hunk" → t = .Hunk := by
  cases t <;> simp [lineTypeStr]

theorem lineTypeStr_comment {t : DiffLineType} :
    lineTypeStr t = "comment" → t = .Comment := by
  cases t <;> simp [lineTypeStr]

theorem buildLines_mem_nums (dls : List DiffLine) :
    ∀ (hls : List HighlightedLine) (fc : Option (List PrComment)),
    (∀ dl ∈ dls, (dl.line_type = .Hunk ∨ dl.line_type = .Comment) →
      dl.old_line_num = none ∧ dl.new_line_num = none) →
    ∀ m ∈ buildLines dls hls fc,
      (m.line_type = "hunk" ∨ m.line_type = "comment") →
        m.old_line_num = "" ∧ m.new_line_num = "" ∧ m.spans = [] := by
  induction dls with
  | nil =>
    intro hls fc _ m hm
    rw [show buildLines [] hls fc = [] from rfl] at hm
    exact absurd hm (List.not_mem_nil m)
  | cons dl rest ih =>
    intro hls fc hwfl m hm ht
    have hwfl1 : (dl.line_type = .Hunk ∨ dl.line_type = .Comment) →
        dl.old_line_num = none ∧ dl.new_line_num = none :=
      hwfl dl (List.mem_cons_self dl rest)
    have hwfl2 : ∀ l ∈ rest,
        (l.line_type = .Hunk ∨ l.line_type = .Comment) →
          l.old_line_num = none ∧ l.new_line_num = none :=
      fun l hl => hwfl l (List.mem_cons_of_mem dl hl)
    have hcmt : ∀ c : PrComment,
        m = DiffLineModel.ofLine (commentDisplayLine c) →
        m.old_line_num = "" ∧ m.new_line_num = "" ∧ m.spans = [] := by
      rintro c rfl
      simp [DiffLineModel.ofLine, commentDisplayLine]
    have hofl : m = DiffLineModel.ofLine dl →
        m.old_line_num = "" ∧ m.new_line_num = "" ∧ m.spans = [] := by
      rintro rfl
      have htype : dl.line_type = .Hunk ∨ dl.line_type = .Comment := by
        rcases ht with h | h
        · exact Or.inl (lineTypeStr_hunk h)
        · exact Or.inr (lineTypeStr_comment h)
      obtain ⟨ho, hn⟩ := hwfl1 htype
      simp [DiffLineModel.ofLine, ho, hn]
    by_cases hcode : isCodeType dl.line_type
    · have hnotmk : ¬ (lineTypeStr dl.line_type = "hunk" ∨
          lineTypeStr dl.line_type = "comment") := by
        rintro (h | h)
        · rw [lineTypeStr_hunk h] at hcode
          exact Bool.noConfusion hcode
        · rw [lineTypeStr_comment h] at hcode
          exact Bool.noConfusion hcode
      cases hls with
      | nil =>
        rw [buildLines_cons_code_nil rest fc hcode] at hm
        rcases List.mem_cons.mp hm with rfl | hm2
        · exact absurd ht hnotmk
        · rcases List.mem_append.mp hm2 with hm3 | hm4
          · simp at hm3
            obtain ⟨c, _, rfl⟩ := hm3
            exact hcmt c rfl
          · exact ih [] fc hwfl2 m hm4 ht
      | cons hlh hlt =>
        rw [buildLines_cons_code_cons rest hlh hlt fc hcode] at hm
        rcases List.mem_cons.mp hm with rfl | hm2
        · exact absurd ht (by
            rw [show ({ DiffLineModel.ofLine dl with
                spans := hlh.spans.map spanModel } : DiffLineModel).line_type
              = lineTypeStr dl.line_type from rfl] at ht ⊢
            exact hnotmk)
        · rcases List.mem_append.mp hm2 with hm3 | hm4
          · simp at hm3
            obtain ⟨c, _, rfl⟩ := hm3
            exact hcmt c rfl
          · exact ih hlt fc hwfl2 m hm4 ht
    · have hcode' : isCodeType dl.line_type = false := by
        simp at hcode
        exact hcode
      rw [buildLines_cons_not_code rest hls fc hcode'] at hm
      rcases List.mem_cons.mp hm with rfl | hm2
      · exact hofl rfl
      · rcases List.mem_append.mp hm2 with hm3 | hm4
        · simp at hm3
          obtain ⟨c, _, rfl⟩ := hm3
          exact hcmt c rfl
        · exact ih hls fc hwfl2 m hm4 ht

/-- C9: assuming the spec's `Line` data-model invariant for input hunk
lines, every HunkHeader and every Comment display line in the interleaver's
output has both line-number fields unset and no highlight spans; and the
spans attached to the code display lines are exactly the highlighter's
per-line span lists, in collection order (truncated or padded with empty
span lists when the highlighter returns too many or too few lines). -/
theorem c9_nums_and_spans (data : DiffData) (path : String)
    (comments : Option FileComments) (hl : Highlighter)
    (hwf : WfHunks ((alGet data.file_hunks path).getD [])) :
    (∀ m ∈ get_lines_for_file data path comments hl,
      (m.line_type = "hunk" ∨ m.line_type = "comment") →
        m.old_line_num = "" ∧ m.new_line_num = "" ∧ m.spans = []) ∧
    (((get_lines_for_file data path comments hl).filter
        isCodeModel).map (fun m => m.spans)
      = ((hl (fullContentFor data path) path).take
            (((diffLinesFor data path).filter
              (fun l => isCodeType l.line_type)).length)).map
          (fun h => h.spans.map spanModel)
        ++ List.replicate
            ((((diffLinesFor data path).filter
                (fun l => isCodeType l.line_type)).length)
              - (hl (fullContentFor data path) path).length) []) := by
  constructor
  · unfold get_lines_for_file
    exact buildLines_mem_nums _ _ _ (wf_diffLinesFor hwf)
  · unfold get_lines_for_file
    exact buildLines_spans _ _ _

/-- C9 witness: the theorem applied to the one-hunk file `dataA`. -/
theorem c9_witness :
    WfHunks ((alGet dataA.file_hunks "file.x").getD []) ∧
    (∀ m ∈ get_lines_for_file dataA "file.x" (some fcA) noHl,
      (m.line_type = "hunk" ∨ m.line_type = "comment") →
        m.old_line_num = "" ∧ m.new_line_num = "" ∧ m.spans = []) :=
  ⟨by decide,
   (c9_nums_and_spans dataA "file.x" (some fcA) noHl (by decide)).1⟩

/-- C2 witness: the theorem applied to the one-hunk file `dataA` with one
matching comment. -/
theorem c2_witness :
    WfHunks ((alGet dataA.file_hunks "file.x").getD []) ∧
    (∀ dl ∈ diffLinesFor dataA "file.x",
      ∀ c ∈ matchingComments dl (fileCommentsFor (some fcA) "file.x"),
        c.line ≠ none ∧ isCodeType dl.line_type = true ∧
        (c.side = .Right → dl.new_line_num = c.line) ∧
        (c.side = .Left → dl.old_line_num = c.line)) :=
  ⟨by decide,
   (c2_comment_matching dataA "file.x" (some fcA) noHl (by decide)).2.1⟩

/-- C10: a file path absent from the hunk map yields the empty display
sequence, even when grouped comments exist for that path. -/
theorem c10_missing_path_empty (data : DiffData) (path : String)
    (comments : Option FileComments) (hl : Highlighter)
    (h : alGet data.file_hunks path = none) :
    get_lines_for_file data path comments hl = [] := by
  have hdl : diffLinesFor data path = [] := by
    unfold diffLinesFor
    rw [h]
    rfl
  unfold get_lines_for_file
  rw [hdl]
  rfl

/-- C10 witness: the empty diff with a grouped comment present for the
requested path. -/
theorem c10_witness :
    alGet dataEmpty.file_hunks "file.x" = none ∧
    get_lines_for_file dataEmpty "file.x" (some fcA) noHl = [] :=
  ⟨by decide,
   c10_missing_path_empty dataEmpty "file.x" (some fcA) noHl (by decide)⟩

/-- C8: the end-to-end scenario of the spec — one hunk
`[Context old=1/new=1 "a", Add new=2 "b"]` and one comment
`{line: 2, side: Right}` — produces exactly four display lines
`[HunkHeader, Context "a", Add "b", Comment]`, the comment last. -/
theorem c8_end_to_end :
    (get_lines_for_file dataA "file.x" (some fcA) noHl).map
        (fun m => m.line_type)
      = ["hunk", "context", "add", "comment"] ∧
    (get_lines_for_file dataA "file.x" (some fcA) noHl).length = 4 ∧
    ((get_lines_for_file dataA "file.x" (some fcA) noHl).get? 1).map
        (fun m => m.content) = some "a" ∧
    ((get_lines_for_file dataA "file.x" (some fcA) noHl).get? 2).map
        (fun m => m.content) = some "b" ∧
    ((get_lines_for_file dataA "file.x" (some fcA) noHl).get? 3).map
        (fun m => m.comment_body) = some "looks good" := by
  decide

/-- C6: for a change request whose commits are `[{sha "a", parent none},
{sha "b", parent "a"}]`, selecting commit index 0 resolves base to the
request's recorded base ref and head to commit "a", selecting index 1
resolves base to "a"'s id and head to "b"'s id, and in both cases the
comment subset grouped by file is exactly the comments whose
`original_commit_sha` equals the selected commit's sha. -/
theorem c6_commit_selection (base_ref : String) (head_ref : Option String)
    (s1 m1 a1 s2 m2 a2 : String)
    (comments : List PrComment) (resolve : String → Option String)
    (rb ra rbv : String)
    (hb : resolve base_ref = some rb)
    (ha : resolve "a" = some ra)
    (hbv : resolve "b" = some rbv) :
    commit_selection 0 (some base_ref) head_ref
        [{ sha := "a", short_sha := s1, parent_sha := none,
           message := m1, author := a1 },
         { sha := "b", short_sha := s2, parent_sha := some "a",
           message := m2, author := a2 }] comments resolve
      = some (rb, ra, group_comments_by_file
          (comments.filter (fun cm => cm.original_commit_id = "a"))) ∧
    commit_selection 1 (some base_ref) head_ref
        [{ sha := "a", short_sha := s1, parent_sha := none,
           message := m1, author := a1 },
         { sha := "b", short_sha := s2, parent_sha := some "a",
           message := m2, author := a2 }] comments resolve
      = some (ra, rbv, group_comments_by_file
          (comments.filter (fun cm => cm.original_commit_id = "b"))) := by
  constructor
  · simp [commit_selection, hb, ha]
  · simp [commit_selection, ha, hbv]

/-- C6 witness: the scenario with the identity-like resolver. -/
theorem c6_witness :
    (fun s => some s : String → Option String) "main" = some "main" ∧
    (fun s => some s : String → Option String) "a" = some "a" ∧
    (fun s => some s : String → Option String) "b" = some "b" ∧
    commit_selection 0 (some "main") none
        [{ sha := "a", short_sha := "a", parent_sha := none,
           message := "", author := "" },
         { sha := "b", short_sha := "b", parent_sha := some "a",
           message := "", author := "" }] [] (fun s => some s)
      = some ("main", "a", group_comments_by_file
          (List.filter (fun cm => cm.original_commit_id = "a") [])) :=
  ⟨rfl, rfl, rfl,
   (c6_commit_selection "main" none "a" "" "" "b" "" "" []
      (fun s => some s) "main" "a" "b" rfl rfl rfl).1⟩

theorem specMap_shape (es : List Ent) :
    specMap es =
      (firstDedup ((es.filter (fun e => e.parts ≠ [])).map headKey)).map
        (fun k => (k, specNodeOf k
          ((es.filter (fun e => e.parts ≠ [])).filter
            (fun e => headKey e = k)))) := by
  rw [specMap]
  exact List.attach_map_val _ (fun k =>
    (k, specNodeOf k ((es.filter (fun e => e.parts ≠ [])).filter
      (fun e => headKey e = k))))

theorem entsSize_nil : entsSize [] = 0 := rfl

theorem entsSize_cons (e : Ent) (es : List Ent) :
    entsSize (e :: es) = e.parts.length + entsSize es := by
  simp [entsSize]

theorem entsSize_le_of_sublist {l1 l2 : List Ent} (h : l1.Sublist l2) :
    entsSize l1 ≤ entsSize l2 := by
  unfold entsSize
  exact List.Sublist.sum_le_sum (h.map (fun e => e.parts.length))
    (fun i _ => Nat.zero_le i)

theorem entsSize_map_entTail_le (l : List Ent) :
    entsSize (l.map entTail) ≤ entsSize l := by
  induction l with
  | nil => simp [entsSize]
  | cons a t ih =>
    simp only [entsSize, List.map_cons, List.sum_cons] at ih ⊢
    have : (entTail a).parts.length ≤ a.parts.length := by
      simp [entTail, List.length_tail]
    omega

theorem entsSize_map_entTail_lt {l : List Ent}
    (hne : ∀ e ∈ l, e.parts ≠ []) (hnil : l ≠ []) :
    entsSize (l.map entTail) < entsSize l := by
  cases l with
  | nil => exact absurd rfl hnil
  | cons a t =>
    simp only [entsSize, List.map_cons, List.sum_cons]
    have h1 : (entTail a).parts.length < a.parts.length := by
      have := hne a (List.mem_cons_self a t)
      simp [entTail, List.length_tail]
      cases h : a.parts with
      | nil => exact absurd h this
      | cons x xs => simp [h]
    have h2 := entsSize_map_entTail_le t
    simp only [entsSize] at h2
    omega

theorem mem_firstDedup_iff (l : List String) (x : String) :
    x ∈ firstDedup l ↔ x ∈ l := by
  induction l using firstDedup.induct with
  | case1 =>
    rw [firstDedup]
  | case2 a rest ih =>
    rw [firstDedup]
    constructor
    · intro h
      rcases List.mem_cons.mp h with rfl | h2
      · exact List.mem_cons_self _ _
      · exact List.mem_cons_of_mem _
          (List.mem_of_mem_filter (ih.mp h2))
    · intro h
      rcases List.mem_cons.mp h with rfl | h2
      · exact List.mem_cons_self _ _
      · by_cases hax : x = a
        · subst hax
          exact List.mem_cons_self _ _
        · refine List.mem_cons_of_mem _ (ih.mpr ?_)
          exact List.mem_filter.mpr ⟨h2, by simp [hax]⟩

theorem nodup_firstDedup (l : List String) : (firstDedup l).Nodup := by
  induction l using firstDedup.induct with
  | case1 => rw [firstDedup]; exact List.nodup_nil
  | case2 a rest ih =>
    rw [firstDedup]
    refine List.nodup_cons.mpr ⟨?_, ih⟩
    intro hmem
    have := (mem_firstDedup_iff _ _).mp hmem
    have := (List.mem_filter.mp this).2
    simp at this

theorem firstDedup_append_not_mem {l : List String} {k : String}
    (h : k ∉ l) : firstDedup (l ++ [k]) = firstDedup l ++ [k] := by
  induction l using firstDedup.induct with
  | case1 =>
    show firstDedup [k] = firstDedup [] ++ [k]
    simp [firstDedup]
  | case2 a rest ih =>
    have hka : k ≠ a := fun he => h (he ▸ List.mem_cons_self a rest)
    rw [List.cons_append, firstDedup, firstDedup]
    have hfil : (rest ++ [k]).filter (fun x => x ≠ a)
        = rest.filter (fun x => x ≠ a) ++ [k] := by
      rw [List.filter_append]
      simp [hka]
    rw [hfil, ih (fun hm => h (List.mem_cons_of_mem _
      (List.mem_of_mem_filter hm)))]
    rfl

theorem firstDedup_append_mem {l : List String} {k : String}
    (h : k ∈ l) : firstDedup (l ++ [k]) = firstDedup l := by
  induction l using firstDedup.induct with
  | case1 => exact absurd h (List.not_mem_nil k)
  | case2 a rest ih =>
    rw [List.cons_append, firstDedup, firstDedup]
    by_cases hka : k = a
    · subst hka
      have hfil : (rest ++ [k]).filter (fun x => x ≠ k)
          = rest.filter (fun x => x ≠ k) := by
        rw [List.filter_append]
        simp
      rw [hfil]
    · rcases List.mem_cons.mp h with rfl | h2
      · exact absurd rfl hka
      · have hfil : (rest ++ [k]).filter (fun x => x ≠ a)
            = rest.filter (fun x => x ≠ a) ++ [k] := by
          rw [List.filter_append]
          simp [hka]
        rw [hfil, ih (List.mem_filter.mpr ⟨h2, by simp [hka]⟩)]

theorem alGet_keyed {β : Type} (ks : List String) (f : String → β)
    (key : String) :
    alGet (ks.map (fun k => (k, f k))) key
      = if key ∈ ks then some (f key) else none := by
  induction ks with
  | nil => simp [alGet]
  | cons a rest ih =>
    by_cases h : a = key
    · subst h
      simp [alGet, ih]
    · simp only [List.map_cons, alGet, if_neg h, ih]
      have hne : key ≠ a := fun he => h he.symm
      simp [List.mem_cons, hne]

theorem alPut_keyed_not_mem {β : Type} (ks : List String) (f : String → β)
    (key : String) (v : β) (h : key ∉ ks) :
    alPut (ks.map (fun k => (k, f k))) key v
      = ks.map (fun k => (k, f k)) ++ [(key, v)] := by
  induction ks with
  | nil => simp [alPut]
  | cons a rest ih =>
    have hka : ¬ a = key := fun he => h (he ▸ List.mem_cons_self a rest)
    simp only [List.map_cons, alPut, if_neg hka, List.cons_append]
    rw [ih (fun hm => h (List.mem_cons_of_mem _ hm))]

theorem alPut_keyed_mem {β : Type} (ks : List String) (f : String → β)
    (key : String) (v : β) (h : key ∈ ks) (hnd : ks.Nodup) :
    alPut (ks.map (fun k => (k, f k))) key v
      = ks.map (fun k => (k, if k = key then v else f k)) := by
  induction ks with
  | nil => exact absurd h (List.not_mem_nil key)
  | cons a rest ih =>
    obtain ⟨hna, hndr⟩ := List.nodup_cons.mp hnd
    by_cases hak : a = key
    · subst hak
      have hmap : rest.map (fun k => (k, if k = a then v else f k))
          = rest.map (fun k => (k, f k)) :=
        List.map_congr_left (fun k hk => by
          have : ¬ k = a := fun he => hna (he ▸ hk)
          simp [this])
      simp [alPut, hmap]
    · rcases List.mem_cons.mp h with rfl | h2
      · exact absurd rfl hak
      · simp only [List.map_cons, alPut, if_neg hak, ih h2 hndr,
          if_neg hak]

theorem specMap_nil : specMap [] = [] := by
  rw [specMap_shape]
  simp [firstDedup]

theorem specNodeOf_name (k : String) (sub : List Ent) :
    (specNodeOf k sub).name = k := by
  unfold specNodeOf
  split <;> rfl

theorem filter_parts_ne_eq_self {es : List Ent}
    (hne : ∀ e ∈ es, e.parts ≠ []) :
    es.filter (fun e => e.parts ≠ []) = es :=
  List.filter_eq_self.mpr (fun e he => by simp [hne e he])

theorem specMap_shape_ne {es : List Ent} (hne : ∀ e ∈ es, e.parts ≠ []) :
    specMap es = (firstDedup (es.map headKey)).map
      (fun k => (k, specNodeOf k
        (es.filter (fun e => headKey e = k)))) := by
  rw [specMap_shape, filter_parts_ne_eq_self hne]

theorem specMap_rekey (es : List Ent) :
    ((specMap es).map (fun kv => kv.2)).map (fun n => (n.name, n))
      = specMap es := by
  rw [specMap_shape]
  simp [specNodeOf_name]

theorem alGet_specMap_ne {es : List Ent} (hne : ∀ e ∈ es, e.parts ≠ [])
    (k : String) :
    alGet (specMap es) k =
      if k ∈ es.map headKey then
        some (specNodeOf k (es.filter (fun e => headKey e = k)))
      else none := by
  rw [specMap_shape_ne hne, alGet_keyed]
  by_cases h : k ∈ es.map headKey
  · rw [if_pos ((mem_firstDedup_iff _ _).mpr h), if_pos h]
  · rw [if_neg (fun hm => h ((mem_firstDedup_iff _ _).mp hm)), if_neg h]

theorem divB_nil_right (p : List String) : divB p [] = false := by
  cases p <;> rfl

theorem divB_cons_same {a : String} {p q : List String} :
    divB (a :: p) (a :: q) = divB p q := by
  simp [divB]

theorem parts_head_cons {s : Ent} {k : String}
    (hne : s.parts ≠ []) (hk : headKey s = k) :
    ∃ t, s.parts = k :: t := by
  cases h : s.parts with
  | nil => exact absurd h hne
  | cons a t =>
    refine ⟨t, ?_⟩
    unfold headKey at hk
    rw [h] at hk
    simp at hk
    rw [hk]

theorem entRel5_tail {s e : Ent} {k : String} {ps pe : List String}
    (hs : s.parts = k :: ps) (he : e.parts = k :: pe)
    (hrel : entRel5 s e) : entRel5 (entTail s) (entTail e) := by
  unfold entRel5 entTail at *
  simp only [hs, he, List.tail_cons] at *
  rcases hrel with heq | hdiv
  · exact Or.inl (by injection heq)
  · rw [divB_cons_same] at hdiv
    exact Or.inr hdiv

theorem insert_path_found_file {m : List (String × FileTreeNode)}
    {k nm pth : String} {fl : Bool} {ch : List FileTreeNode}
    {st0 : Option String} (full st : String)
    (hget : alGet m k = some (.mk nm pth fl ch st0)) :
    insert_path m [k] full st =
      alPut m k (.mk nm full fl ch (some st)) := by
  rw [insert_path]
  simp only [hget, List.isEmpty_nil, if_pos]
  rfl

theorem insert_path_found_folder {m : List (String × FileTreeNode)}
    {k nm pth : String} {fl : Bool} {ch : List FileTreeNode}
    {st0 : Option String} (r : String) (rs : List String)
    (full st : String) (hget : alGet m k = some (.mk nm pth fl ch st0)) :
    insert_path m (k :: r :: rs) full st =
      alPut m k (.mk nm pth fl
        ((insert_path (ch.map (fun c => (c.name, c))) (r :: rs)
          full st).map (fun kv => kv.2)) st0) := by
  rw [insert_path]
  simp only [hget, List.isEmpty_cons, Bool.false_eq_true, if_false]
  rfl

theorem specNodeOf_all_file {k : String} {sub : List Ent}
    (hsub : ∀ s ∈ sub, s.parts = [k]) {e : Ent} (he : e.parts = [k]) :
    specNodeOf k (sub ++ [e]) = .mk k e.full false [] (some e.status) := by
  unfold specNodeOf
  rw [if_pos, List.getLastD_concat]
  rw [List.all_eq_true]
  intro s hs
  rcases List.mem_append.mp hs with hs | hs
  · simp [hsub s hs]
  · simp at hs
    simp [hs, he]

theorem specNodeOf_single_file {k : String} {e : Ent} (he : e.parts = [k]) :
    specNodeOf k [e] = .mk k e.full false [] (some e.status) := by
  have := @specNodeOf_all_file k [] (fun s hs => absurd hs
    (List.not_mem_nil s)) e he
  rw [List.nil_append] at this
  exact this

theorem specNodeOf_end_folder {k r : String} {rs : List String}
    {sub : List Ent} {e : Ent} (he : e.parts = k :: r :: rs) :
    specNodeOf k (sub ++ [e]) = .mk k k true
      ((specMap ((sub ++ [e]).map entTail)).map (fun kv => kv.2)) none := by
  unfold specNodeOf
  rw [if_neg]
  intro hall
  rw [List.all_eq_true] at hall
  have := hall e (List.mem_append.mpr (Or.inr (by simp)))
  rw [he] at this
  simp at this

theorem specNodeOf_single_folder {k r : String} {rs : List String}
    {e : Ent} (he : e.parts = k :: r :: rs) :
    specNodeOf k [e] = .mk k k true
      ((specMap [entTail e]).map (fun kv => kv.2)) none := by
  have := @specNodeOf_end_folder k r rs [] e he
  rw [List.nil_append] at this
  rw [this]
  rfl

theorem insert_path_fresh_file {m : List (String × FileTreeNode)}
    {k : String} (full st : String) (hget : alGet m k = none) :
    insert_path m [k] full st =
      alPut m k (.mk k full false [] (some st)) := by
  rw [insert_path]
  simp only [hget, List.isEmpty_nil, if_pos, Bool.not_true,
    FileTreeNode.name, FileTreeNode.is_folder, FileTreeNode.children]

theorem insert_path_fresh_folder {m : List (String × FileTreeNode)}
    {k : String} (r : String) (rs : List String)
    (full st : String) (hget : alGet m k = none) :
    insert_path m (k :: r :: rs) full st =
      alPut m k (.mk k k true
        ((insert_path [] (r :: rs) full st).map (fun kv => kv.2)) none) := by
  rw [insert_path]
  simp only [hget, List.isEmpty_cons, Bool.false_eq_true, if_false,
    Bool.not_false, FileTreeNode.name, FileTreeNode.path,
    FileTreeNode.is_folder, FileTreeNode.children, FileTreeNode.status,
    List.map_nil]

theorem insert_specMap : ∀ (N : Nat) (es : List Ent) (e : Ent),
    entsSize es + e.parts.length ≤ N →
    (∀ x ∈ es, x.parts ≠ []) → e.parts ≠ [] →
    es.Pairwise entRel5 → (∀ s ∈ es, entRel5 s e) →
    insert_path (specMap es) e.parts e.full e.status
      = specMap (es ++ [e]) := by
  intro N
  induction N with
  | zero =>
    intro es e hsz hne hnee hpw hrel
    have hlen : e.parts.length = 0 := by omega
    exact absurd (List.length_eq_zero.mp hlen) hnee
  | succ N ih =>
    intro es e hsz hne hnee hpw hrel
    cases hp : e.parts with
    | nil => exact absurd hp hnee
    | cons k rest =>
      have hke : headKey e = k := by simp [headKey, hp]
      have hne2 : ∀ x ∈ es ++ [e], x.parts ≠ [] := by
        intro x hx
        rcases List.mem_append.mp hx with hx | hx
        · exact hne x hx
        · simp at hx
          rw [hx]
          exact hnee
      have hmap2 : (es ++ [e]).map headKey = es.map headKey ++ [k] := by
        rw [List.map_append]
        simp [hke]
      have hfil2 : ∀ k' : String,
          (es ++ [e]).filter (fun x => headKey x = k')
            = es.filter (fun x => headKey x = k')
              ++ (if k = k' then [e] else []) := by
        intro k'
        rw [List.filter_append]
        by_cases hkk : k = k'
        · simp [hkk ▸ hke, hkk]
        · have : ¬ headKey e = k' := fun h => hkk (hke ▸ h)
          simp [this, hkk]
      by_cases hk : k ∈ es.map headKey
      -- existing key
      · have hget : alGet (specMap es) k
            = some (specNodeOf k (es.filter (fun x => headKey x = k))) := by
          rw [alGet_specMap_ne hne k, if_pos hk]
        have hkeys : k ∈ firstDedup (es.map headKey) :=
          (mem_firstDedup_iff _ _).mpr hk
        have hsubmem : ∀ s ∈ es.filter (fun x => headKey x = k),
            s ∈ es ∧ headKey s = k := by
          intro s hs
          have h1 := List.mem_of_mem_filter hs
          have h2 := (List.mem_filter.mp hs).2
          simp at h2
          exact ⟨h1, h2⟩
        obtain ⟨s0, hs0⟩ : ∃ s0, s0 ∈ es.filter (fun x => headKey x = k) := by
          simp only [List.mem_map] at hk
          obtain ⟨s, hs, hks⟩ := hk
          exact ⟨s, List.mem_filter.mpr ⟨hs, by simp [hks]⟩⟩
        have hkeys2 : firstDedup ((es ++ [e]).map headKey)
            = firstDedup (es.map headKey) := by
          rw [hmap2, firstDedup_append_mem hk]
        cases hrest : rest with
        | nil =>
          -- file insert into existing (all-singleton) group
          rw [hrest] at hp
          have hsing : ∀ s ∈ es.filter (fun x => headKey x = k),
              s.parts = [k] := by
            intro s hs
            obtain ⟨hses, hsk⟩ := hsubmem s hs
            obtain ⟨t, hst⟩ := parts_head_cons (hne s hses) hsk
            rcases hrel s hses with heq | hdiv
            · rw [heq, hp]
            · rw [hst, hp, divB_cons_same] at hdiv
              rw [divB_nil_right] at hdiv
              exact Bool.noConfusion hdiv
          have hall : (es.filter (fun x => headKey x = k)).all
              (fun x => x.parts.length == 1) = true := by
            rw [List.all_eq_true]
            intro s hs
            simp [hsing s hs]
          have hget2 : alGet (specMap es) k = some (.mk k
              ((es.filter (fun x => headKey x = k)).getLastD
                defaultEnt).full false []
              (some ((es.filter (fun x => headKey x = k)).getLastD
                defaultEnt).status)) := by
            rw [hget]
            unfold specNodeOf
            rw [if_pos hall]
          rw [insert_path_found_file e.full e.status hget2]
          rw [specMap_shape_ne hne, specMap_shape_ne hne2, hkeys2]
          rw [alPut_keyed_mem _ _ _ _ hkeys (nodup_firstDedup _)]
          refine List.map_congr_left ?_
          intro k' hk'
          by_cases hkk : k' = k
          · subst hkk
            rw [if_pos rfl, hfil2 k', if_pos rfl,
              specNodeOf_all_file hsing hp]
          · rw [if_neg hkk, hfil2 k',
              if_neg (fun h => hkk (h.symm)), List.append_nil]
        | cons r rs =>
          -- folder insert into existing (all-non-singleton) group
          rw [hrest] at hp
          have htail : ∀ s ∈ es.filter (fun x => headKey x = k),
              ∃ t, s.parts = k :: t ∧ t ≠ [] := by
            intro s hs
            obtain ⟨hses, hsk⟩ := hsubmem s hs
            obtain ⟨t, hst⟩ := parts_head_cons (hne s hses) hsk
            refine ⟨t, hst, ?_⟩
            rcases hrel s hses with heq | hdiv
            · rw [hst, hp] at heq
              injection heq with h1 h2
              rw [h2]
              simp
            · rw [hst, hp, divB_cons_same] at hdiv
              intro htnil
              rw [htnil] at hdiv
              exact Bool.noConfusion hdiv
          have hnall : ¬ ((es.filter (fun x => headKey x = k)).all
              (fun x => x.parts.length == 1) = true) := by
            intro hall
            rw [List.all_eq_true] at hall
            obtain ⟨t, hst, htne⟩ := htail s0 hs0
            have := hall s0 hs0
            rw [hst] at this
            simp at this
            exact htne this
          have hget2 : alGet (specMap es) k = some (.mk k k true
              ((specMap (((es.filter (fun x => headKey x = k))).map
                entTail)).map (fun kv => kv.2)) none) := by
            rw [hget]
            unfold specNodeOf
            rw [if_neg hnall]
          rw [insert_path_found_folder r rs e.full e.status hget2]
          have hrekey : ((specMap ((es.filter
              (fun x => headKey x = k)).map entTail)).map
                (fun kv => kv.2)).map (fun c => (c.name, c))
              = specMap ((es.filter (fun x => headKey x = k)).map entTail) :=
            specMap_rekey _
          rw [hrekey]
          have hsz2 : entsSize ((es.filter (fun x => headKey x = k)).map
              entTail) + (entTail e).parts.length ≤ N := by
            have h1 : entsSize ((es.filter (fun x => headKey x = k)).map
                entTail) < entsSize (es.filter (fun x => headKey x = k)) :=
              entsSize_map_entTail_lt
                (fun s hs => hne s (hsubmem s hs).1)
                (List.ne_nil_of_mem hs0)
            have h2 : entsSize (es.filter (fun x => headKey x = k))
                ≤ entsSize es :=
              entsSize_le_of_sublist (List.filter_sublist es)
            have h3 : (entTail e).parts.length = rs.length + 1 := by
              simp [entTail, hp]
            rw [hp] at hsz
            simp at hsz
            omega
          have hneT : ∀ x ∈ (es.filter (fun x => headKey x = k)).map
              entTail, x.parts ≠ [] := by
            intro x hx
            simp only [List.mem_map] at hx
            obtain ⟨s, hs, rfl⟩ := hx
            obtain ⟨t, hst, htne⟩ := htail s hs
            simp [entTail, hst]
            exact htne
          have hneeT : (entTail e).parts ≠ [] := by
            simp [entTail, hp]
          have hpwT : ((es.filter (fun x => headKey x = k)).map
              entTail).Pairwise entRel5 := by
            rw [List.pairwise_map]
            refine List.Pairwise.imp_of_mem ?_
              (hpw.filter (fun x => headKey x = k))
            intro a b ha hb hab
            obtain ⟨ta, hta, _⟩ := htail a ha
            obtain ⟨tb, htb, _⟩ := htail b hb
            exact entRel5_tail hta htb hab
          have hrelT : ∀ s ∈ (es.filter (fun x => headKey x = k)).map
              entTail, entRel5 s (entTail e) := by
            intro x hx
            simp only [List.mem_map] at hx
            obtain ⟨s, hs, rfl⟩ := hx
            obtain ⟨ts, hts, _⟩ := htail s hs
            exact entRel5_tail hts hp (hrel s (hsubmem s hs).1)
          have hih := ih ((es.filter (fun x => headKey x = k)).map entTail)
            (entTail e) hsz2 hneT hneeT hpwT hrelT
          have hparts : (entTail e).parts = r :: rs := by
            simp [entTail, hp]
          rw [hparts, show ((entTail e).full) = e.full from rfl,
            show ((entTail e).status) = e.status from rfl] at hih
          rw [hih]
          rw [specMap_shape_ne hne, specMap_shape_ne hne2, hkeys2]
          rw [alPut_keyed_mem _ _ _ _ hkeys (nodup_firstDedup _)]
          refine List.map_congr_left ?_
          intro k' hk'
          by_cases hkk : k' = k
          · subst hkk
            rw [if_pos rfl, hfil2 k', if_pos rfl,
              specNodeOf_end_folder hp, List.map_append]
            rfl
          · rw [if_neg hkk, hfil2 k',
              if_neg (fun h => hkk (h.symm)), List.append_nil]
      -- new key
      · have hget : alGet (specMap es) k = none := by
          rw [alGet_specMap_ne hne k, if_neg hk]
        have hkeys : k ∉ firstDedup (es.map headKey) :=
          fun h => hk ((mem_firstDedup_iff _ _).mp h)
        have hkeys2 : firstDedup ((es ++ [e]).map headKey)
            = firstDedup (es.map headKey) ++ [k] := by
          rw [hmap2, firstDedup_append_not_mem hk]
        have hfilnil : es.filter (fun x => headKey x = k) = [] := by
          rw [List.filter_eq_nil_iff]
          intro s hs
          simp only [decide_eq_true_eq]
          intro hks
          exact hk (List.mem_map.mpr ⟨s, hs, hks⟩)
        have hmapold : ∀ k' ∈ firstDedup (es.map headKey),
            ((es ++ [e]).filter (fun x => headKey x = k'))
              = es.filter (fun x => headKey x = k') := by
          intro k' hk'
          rw [hfil2 k', if_neg, List.append_nil]
          intro hkk
          exact hkeys (hkk ▸ hk')
        cases hrest : rest with
        | nil =>
          rw [hrest] at hp
          rw [insert_path_fresh_file e.full e.status hget]
          rw [specMap_shape_ne hne, specMap_shape_ne hne2, hkeys2]
          rw [alPut_keyed_not_mem _ _ _ _ hkeys]
          rw [List.map_append]
          congr 1
          · exact (List.map_congr_left (fun k' hk' => by
              rw [hmapold k' hk'])).symm
          · simp only [List.map_cons, List.map_nil]
            rw [hfil2 k, if_pos rfl, hfilnil]
            rw [show ([] : List Ent) ++ [e] = [e] from rfl]
            rw [specNodeOf_single_file hp]
        | cons r rs =>
          rw [hrest] at hp
          rw [insert_path_fresh_folder r rs e.full e.status hget]
          have hih := ih [] (entTail e)
            (by
              have h3 : (entTail e).parts.length = rs.length + 1 := by
                simp [entTail, hp]
              rw [hp] at hsz
              simp [entsSize_nil, List.length_cons] at hsz ⊢
              omega)
            (by intro x hx; exact absurd hx (List.not_mem_nil x))
            (by simp [entTail, hp])
            List.Pairwise.nil
            (by intro s hs; exact absurd hs (List.not_mem_nil s))
          rw [specMap_nil] at hih
          have hparts : (entTail e).parts = r :: rs := by
            simp [entTail, hp]
          rw [hparts, show ((entTail e).full) = e.full from rfl,
            show ((entTail e).status) = e.status from rfl] at hih
          rw [hih]
          rw [specMap_shape_ne hne, specMap_shape_ne hne2, hkeys2]
          rw [alPut_keyed_not_mem _ _ _ _ hkeys]
          rw [List.map_append]
          congr 1
          · exact (List.map_congr_left (fun k' hk' => by
              rw [hmapold k' hk'])).symm
          · simp only [List.map_cons, List.map_nil]
            rw [hfil2 k, if_pos rfl, hfilnil]
            rw [show ([] : List Ent) ++ [e] = [e] from rfl]
            rw [specNodeOf_single_folder hp]
            rfl

theorem buildMap_append (es : List Ent) (e : Ent) :
    buildMap (es ++ [e]) = buildStep (buildMap es) e := by
  simp [buildMap, List.foldl_append]

theorem divB_irrefl (p : List String) : divB p p = false := by
  induction p with
  | nil => rfl
  | cons a t ih => simp [divB, ih]

theorem divB_symm (p q : List String) : divB p q = divB q p := by
  induction p generalizing q with
  | nil => cases q <;> rfl
  | cons a p ih =>
    cases q with
    | nil => rfl
    | cons b q =>
      by_cases h : a = b
      · subst h
        simp [divB, ih]
      · have h2 : ¬ b = a := fun hh => h hh.symm
        simp [divB, h, h2]

theorem buildMap_eq_specMap (es : List Ent)
    (hne : ∀ x ∈ es, x.parts ≠ []) (hpw : es.Pairwise entRel5) :
    buildMap es = specMap es := by
  induction es using List.reverseRecOn with
  | nil => rw [specMap_nil]; rfl
  | append_singleton es e ih =>
    have hne' : ∀ x ∈ es, x.parts ≠ [] := fun x hx => hne x (List.mem_append_left _ hx)
    have hnee : e.parts ≠ [] := hne e (List.mem_append_right _ (List.mem_singleton.mpr rfl))
    obtain ⟨hpw1, _, hrel⟩ := List.pairwise_append.mp hpw
    rw [buildMap_append, buildStep, ih hne' hpw1]
    exact insert_specMap (entsSize es + e.parts.length) es e le_rfl hne' hnee hpw1
      (fun s hs => hrel s hs e (List.mem_singleton.mpr rfl))

theorem build_file_tree_eq (files : List FileChange) :
    build_file_tree files =
      sort_tree ((buildMap (files.map entOf)).map (fun kv => kv.2)) := by
  simp only [build_file_tree, buildMap, List.foldl_map]
  rfl

theorem splitSlash_ne_nil (s : String) : splitSlash s ≠ [] := by
  rw [splitSlash]
  intro h
  exact List.splitOnP_ne_nil _ _ (List.map_eq_nil.mp h)

theorem flatten_tree_eq_flatMap (ns : List FileTreeNode) (d : Int) :
    flatten_tree ns d = ns.flatMap (fun n => flattenOne n d) := by
  induction ns with
  | nil => simp [flatten_tree]
  | cons n rest ih =>
    cases n with
    | mk nm p f cs st =>
      rw [List.flatMap_cons, flattenOne]
      rw [flatten_tree, ih]
      simp

theorem sort_tree_eq_map (ns : List FileTreeNode) :
    sort_tree ns = (ns.mergeSort nodeLe).map sortNode := by
  rw [sort_tree]
  exact List.attach_map_val _ sortNode

theorem sortNode_eq (nm p : String) (f : Bool) (cs : List FileTreeNode)
    (st : Option String) :
    sortNode (.mk nm p f cs st) = .mk nm p f (sort_tree cs) st := by
  rw [sortNode]

theorem sort_tree_nil : sort_tree [] = [] := by
  rw [sort_tree_eq_map]
  simp

theorem sort_tree_singleton (n : FileTreeNode) : sort_tree [n] = [sortNode n] := by
  rw [sort_tree_eq_map, List.mergeSort_singleton]
  rfl

theorem sort_tree_pair {a b : FileTreeNode} (h : nodeLe a b = true) :
    sort_tree [a, b] = [sortNode a, sortNode b] := by
  rw [sort_tree_eq_map]
  rw [List.mergeSort_of_sorted (by simp [List.pairwise_cons, h])]
  rfl

theorem flatMap_perm_congr {α β : Type} {l : List α} {f g : α → List β}
    (h : ∀ x ∈ l, (f x).Perm (g x)) : (l.flatMap f).Perm (l.flatMap g) := by
  induction l with
  | nil => simp
  | cons a t ih =>
    simp only [List.flatMap_cons]
    exact (h a (List.mem_cons_self a t)).append
      (ih (fun x hx => h x (List.mem_cons_of_mem a hx)))

theorem flatten_sort_perm : ∀ (N : Nat) (ns : List FileTreeNode) (d : Int),
    sizeOf ns ≤ N →
    (flatten_tree (sort_tree ns) d).Perm (flatten_tree ns d) := by
  intro N
  induction N with
  | zero =>
    intro ns d h
    exfalso
    cases ns <;> simp at h
  | succ N ih =>
    intro ns d h
    rw [sort_tree_eq_map, flatten_tree_eq_flatMap, flatten_tree_eq_flatMap]
    rw [List.flatMap_map sortNode (fun n => flattenOne n d) (ns.mergeSort nodeLe)]
    have h2 : ∀ n ∈ ns.mergeSort nodeLe,
        (flattenOne (sortNode n) d).Perm (flattenOne n d) := by
      intro n hn
      have hmem : n ∈ ns := List.mem_mergeSort.mp hn
      have hsz : sizeOf n < sizeOf ns := List.sizeOf_lt_of_mem hmem
      cases n with
      | mk nm p f cs st =>
        rw [sortNode_eq, flattenOne, flattenOne]
        cases f with
        | false => simp
        | true =>
          simp only [if_pos]
          refine List.Perm.cons _ ?_
          apply ih cs (d + 1)
          have hlt : sizeOf cs < sizeOf (FileTreeNode.mk nm p true cs st) := by
            simp
            omega
          omega
    exact (flatMap_perm_congr h2).trans
      ((List.mergeSort_perm ns nodeLe).flatMap_right (fun n => flattenOne n d))

theorem firstDedup_cons (a : String) (l : List String) :
    firstDedup (a :: l) = a :: firstDedup (l.filter (fun x => x ≠ a)) := by
  rw [firstDedup]

theorem flatMap_congr_mem {α β : Type} {l : List α} {f g : α → List β}
    (h : ∀ x ∈ l, f x = g x) : l.flatMap f = l.flatMap g := by
  induction l with
  | nil => rfl
  | cons a t ih =>
    simp only [List.flatMap_cons]
    rw [h a (List.mem_cons_self a t), ih (fun x hx => h x (List.mem_cons_of_mem a hx))]

theorem perm_flatMap_filter {α : Type} (key : α → String) :
    ∀ (N : Nat) (l : List α), l.length ≤ N →
    l.Perm ((firstDedup (l.map key)).flatMap
      (fun k => l.filter (fun x => key x = k))) := by
  intro N
  induction N with
  | zero =>
    intro l h
    have hl : l = [] := List.length_eq_zero.mp (Nat.le_zero.mp h)
    subst hl
    simp [firstDedup]
  | succ N ih =>
    intro l h
    cases l with
    | nil => simp [firstDedup]
    | cons a t =>
      rw [List.map_cons, firstDedup_cons]
      have hfm : (t.map key).filter (fun x => x ≠ key a)
          = (t.filter (fun x => key x ≠ key a)).map key := by
        rw [List.filter_map]
        rfl
      rw [hfm, List.flatMap_cons]
      have hka : (a :: t).filter (fun x => key x = key a)
          = a :: t.filter (fun x => key x = key a) := by
        simp
      rw [hka]
      have hmemk : ∀ k ∈ firstDedup ((t.filter (fun x => key x ≠ key a)).map key),
          k ≠ key a := by
        intro k hk
        have hk2 := (mem_firstDedup_iff _ _).mp hk
        obtain ⟨x, hx, rfl⟩ := List.mem_map.mp hk2
        have := (List.mem_filter.mp hx).2
        simpa using this
      have hcongr : ∀ k ∈ firstDedup ((t.filter (fun x => key x ≠ key a)).map key),
          (a :: t).filter (fun x => key x = k)
            = (t.filter (fun x => key x ≠ key a)).filter (fun x => key x = k) := by
        intro k hk
        have hne := hmemk k hk
        rw [List.filter_cons]
        rw [if_neg (by simpa using fun hh => hne hh.symm)]
        rw [List.filter_filter]
        apply List.filter_congr
        intro x hx
        by_cases hxk : key x = k
        · have : key x ≠ key a := fun hh => hne (hxk ▸ hh.symm ▸ rfl)
          simp [hxk, this, hne]
        · simp [hxk]
      rw [flatMap_congr_mem hcongr]
      have hlen : (t.filter (fun x => key x ≠ key a)).length ≤ N := by
        have h1 := List.length_filter_le (fun x => decide (key x ≠ key a)) t
        have ht : t.length ≤ N := by
          simp only [List.length_cons] at h
          omega
        omega
      have hih := ih (t.filter (fun x => key x ≠ key a)) hlen
      refine List.Perm.cons a ?_
      have hsplit : t.Perm (t.filter (fun x => key x = key a)
          ++ t.filter (fun x => key x ≠ key a)) := by
        have hbase := List.filter_append_perm (fun x => decide (key x = key a)) t
        have heq : t.filter (fun x => !decide (key x = key a))
            = t.filter (fun x => key x ≠ key a) := by
          apply List.filter_congr
          intro x hx
          simp
        rw [heq] at hbase
        exact hbase.symm
      exact hsplit.trans (List.Perm.append_left _ hih)

theorem leafPairs_eq_flatMap (ns : List FileTreeNode) (d : Int) :
    leafPairs ns d = ns.flatMap (fun n => leafPairsOne n d) := by
  unfold leafPairs
  rw [flatten_tree_eq_flatMap]
  induction ns with
  | nil => rfl
  | cons n t ih =>
    rw [List.flatMap_cons, List.flatMap_cons, List.filter_append, List.map_append, ih]
    rfl

theorem leafPairsOne_file (k full st : String) (d : Int) :
    leafPairsOne (.mk k full false [] (some st)) d = [(full, st)] := by
  simp [leafPairsOne, flattenOne]

theorem leafPairsOne_folder (k p : String) (cs : List FileTreeNode)
    (st : Option String) (d : Int) :
    leafPairsOne (.mk k p true cs st) d = leafPairs cs (d + 1) := by
  simp [leafPairsOne, flattenOne, leafPairs]

theorem entRelDiv_symm : Symmetric entRelDiv := by
  intro a b h
  unfold entRelDiv at *
  rw [divB_symm]
  exact h

theorem group_file_singleton {g : List Ent} {k : String}
    (hpw : g.Pairwise entRelDiv)
    (hkey : ∀ s ∈ g, headKey s = k)
    (hne : ∀ s ∈ g, s.parts ≠ [])
    (hnil : g ≠ [])
    (hall : g.all (fun e => e.parts.length == 1) = true) :
    ∃ e, g = [e] ∧ e.parts = [k] := by
  cases g with
  | nil => exact absurd rfl hnil
  | cons e rest =>
    have h1 : e.parts = [k] := by
      obtain ⟨t, ht⟩ := parts_head_cons (hne e (List.mem_cons_self e rest))
        (hkey e (List.mem_cons_self e rest))
      have := (List.all_eq_true.mp hall) e (List.mem_cons_self e rest)
      rw [ht] at this ⊢
      simp at this
      rw [this]
    refine ⟨e, ?_, h1⟩
    cases rest with
    | nil => rfl
    | cons e2 r2 =>
      exfalso
      have h2 : e2.parts = [k] := by
        obtain ⟨t, ht⟩ := parts_head_cons
          (hne e2 (List.mem_cons_of_mem e (List.mem_cons_self e2 r2)))
          (hkey e2 (List.mem_cons_of_mem e (List.mem_cons_self e2 r2)))
        have := (List.all_eq_true.mp hall) e2
          (List.mem_cons_of_mem e (List.mem_cons_self e2 r2))
        rw [ht] at this ⊢
        simp at this
        rw [this]
      have hrel : entRelDiv e e2 :=
        (List.pairwise_cons.mp hpw).1 e2 (List.mem_cons_self e2 r2)
      unfold entRelDiv at hrel
      rw [h1, h2] at hrel
      simp [divB] at hrel

theorem group_folder_tails {g : List Ent} {k : String}
    (hpw : g.Pairwise entRelDiv)
    (hkey : ∀ s ∈ g, headKey s = k)
    (hne : ∀ s ∈ g, s.parts ≠ [])
    (hnall : ¬ g.all (fun e => e.parts.length == 1) = true) :
    ∀ e ∈ g, ∃ r rs, e.parts = k :: r :: rs := by
  have hex : ∃ e0 ∈ g, ¬ e0.parts.length = 1 := by
    by_contra hno
    push_neg at hno
    exact hnall (List.all_eq_true.mpr (fun e he => by simp [hno e he]))
  obtain ⟨e0, he0, hlen0⟩ := hex
  obtain ⟨t0, ht0⟩ := parts_head_cons (hne e0 he0) (hkey e0 he0)
  have ht0ne : t0 ≠ [] := by
    intro h
    rw [h] at ht0
    rw [ht0] at hlen0
    simp at hlen0
  obtain ⟨r0, rs0, hrs0⟩ : ∃ r0 rs0, t0 = r0 :: rs0 := by
    cases t0 with
    | nil => exact absurd rfl ht0ne
    | cons a b => exact ⟨a, b, rfl⟩
  intro e he
  obtain ⟨t, ht⟩ := parts_head_cons (hne e he) (hkey e he)
  cases htc : t with
  | cons r rs => exact ⟨r, rs, by rw [ht, htc]⟩
  | nil =>
    exfalso
    rw [htc] at ht
    have hne2 : e ≠ e0 := by
      intro h
      rw [h] at ht
      rw [ht0, hrs0] at ht
      simp at ht
    have hrel : entRelDiv e e0 := hpw.forall entRelDiv_symm he he0 hne2
    unfold entRelDiv at hrel
    rw [ht, ht0, hrs0, divB_cons_same] at hrel
    simp [divB] at hrel

theorem group_tails_pairwise {g : List Ent} {k : String}
    (hpw : g.Pairwise entRelDiv)
    (hkey : ∀ s ∈ g, headKey s = k)
    (hne : ∀ s ∈ g, s.parts ≠ []) :
    (g.map entTail).Pairwise entRelDiv := by
  rw [List.pairwise_map]
  refine hpw.imp_of_mem ?_
  intro a b ha hb hab
  obtain ⟨ta, hta⟩ := parts_head_cons (hne a ha) (hkey a ha)
  obtain ⟨tb, htb⟩ := parts_head_cons (hne b hb) (hkey b hb)
  unfold entRelDiv entTail at *
  simp only [hta, htb, List.tail_cons] at *
  rw [divB_cons_same] at hab
  exact hab

theorem leaves_specMap : ∀ (N : Nat) (es : List Ent) (d : Int), entsSize es ≤ N →
    (∀ x ∈ es, x.parts ≠ []) → es.Pairwise entRelDiv →
    (leafPairs ((specMap es).map (fun kv => kv.2)) d).Perm (es.map pairOf) := by
  intro N
  induction N with
  | zero =>
    intro es d hsz hne hpw
    have hnil : es = [] := by
      cases es with
      | nil => rfl
      | cons e t =>
        exfalso
        have h1 := hne e (List.mem_cons_self e t)
        have h2 : 0 < e.parts.length := List.length_pos.mpr h1
        have h3 : entsSize (e :: t) = e.parts.length + entsSize t := entsSize_cons e t
        omega
    subst hnil
    rw [specMap_nil]
    simp [leafPairs, flatten_tree]
  | succ N ih =>
    intro es d hsz hne hpw
    rw [specMap_shape_ne hne, List.map_map, leafPairs_eq_flatMap, List.flatMap_map]
    have hstep : ∀ k ∈ firstDedup (es.map headKey),
        (leafPairsOne (specNodeOf k (es.filter (fun e => headKey e = k))) d).Perm
          ((es.filter (fun e => headKey e = k)).map pairOf) := by
      intro k hk
      set g := es.filter (fun e => headKey e = k) with hg
      have hkeyg : ∀ s ∈ g, headKey s = k := by
        intro s hs
        have := (List.mem_filter.mp hs).2
        simpa using this
      have hgne : ∀ s ∈ g, s.parts ≠ [] := fun s hs =>
        hne s (List.mem_filter.mp hs).1
      have hgpw : g.Pairwise entRelDiv := hpw.filter _
      have hgnil : g ≠ [] := by
        have hk2 := (mem_firstDedup_iff _ _).mp hk
        obtain ⟨e, he, hek⟩ := List.mem_map.mp hk2
        have : e ∈ g := List.mem_filter.mpr ⟨he, by simp [hek]⟩
        exact List.ne_nil_of_mem this
      by_cases hall : g.all (fun e => e.parts.length == 1) = true
      · obtain ⟨e, hge, hek⟩ := group_file_singleton hgpw hkeyg hgne hgnil hall
        rw [hge, specNodeOf_single_file hek, leafPairsOne_file]
        simp [pairOf]
      · have htails := group_folder_tails hgpw hkeyg hgne hall
        have hnode : specNodeOf k g = .mk k k true
            ((specMap (g.map entTail)).map (fun kv => kv.2)) none := by
          unfold specNodeOf
          rw [if_neg hall]
        rw [hnode, leafPairsOne_folder]
        have hszg : entsSize (g.map entTail) ≤ N := by
          have h1 : entsSize (g.map entTail) < entsSize g :=
            entsSize_map_entTail_lt hgne hgnil
          have h2 : entsSize g ≤ entsSize es := by
            apply entsSize_le_of_sublist
            exact List.filter_sublist es
          omega
        have hnet : ∀ x ∈ g.map entTail, x.parts ≠ [] := by
          intro x hx
          obtain ⟨s, hs, rfl⟩ := List.mem_map.mp hx
          obtain ⟨r, rs, hrs⟩ := htails s hs
          simp [entTail, hrs]
        have hpwt : (g.map entTail).Pairwise entRelDiv :=
          group_tails_pairwise hgpw hkeyg hgne
        have hih := ih (g.map entTail) (d + 1) hszg hnet hpwt
        refine hih.trans ?_
        rw [List.map_map]
        have : pairOf ∘ entTail = pairOf := by
          funext e
          simp [pairOf, entTail]
        rw [this]
    refine (flatMap_perm_congr hstep).trans ?_
    have hmapfm : (firstDedup (es.map headKey)).flatMap
        (fun k => (es.filter (fun e => headKey e = k)).map pairOf)
        = ((firstDedup (es.map headKey)).flatMap
            (fun k => es.filter (fun e => headKey e = k))).map pairOf := by
      rw [List.map_flatMap]
    rw [hmapfm]
    exact ((perm_flatMap_filter headKey (es.length) es le_rfl).symm).map pairOf

/-- C5 (amended with pairwise path divergence): when no input path is a
prefix of another and no path repeats (pairwise, the `/`-split paths
diverge at some segment), flattening the built tree yields exactly one
non-folder (leaf) entry per input `FileChange`, carrying that file's path
and its status string verbatim: the `(path, status)` pairs of the leaves
are a permutation of the input's `(path, as_str status)` pairs. -/
theorem c5_leaf_round_trip (files : List FileChange)
    (h : files.Pairwise fcDiv) :
    (((flatten_tree (build_file_tree files) 0).filter
        (fun x => !x.is_folder)).map (fun x => (x.path, x.status))).Perm
      (files.map (fun f => (f.path, f.status.as_str))) := by
  rw [build_file_tree_eq]
  have hne : ∀ x ∈ files.map entOf, x.parts ≠ [] := by
    intro x hx
    obtain ⟨f, hf, rfl⟩ := List.mem_map.mp hx
    exact splitSlash_ne_nil _
  have hpwD : (files.map entOf).Pairwise entRelDiv := by
    rw [List.pairwise_map]
    exact h.imp (fun hd => hd)
  have hpw5 : (files.map entOf).Pairwise entRel5 :=
    hpwD.imp (fun hd => Or.inr hd)
  rw [buildMap_eq_specMap _ hne hpw5]
  have h1 := flatten_sort_perm
    (sizeOf ((specMap (files.map entOf)).map (fun kv => kv.2)))
    ((specMap (files.map entOf)).map (fun kv => kv.2)) 0 le_rfl
  have h2 := leaves_specMap (entsSize (files.map entOf)) (files.map entOf) 0
    le_rfl hne hpwD
  have h3 : (((flatten_tree (sort_tree
      ((specMap (files.map entOf)).map (fun kv => kv.2))) 0).filter
        (fun x => !x.is_folder)).map (fun x => (x.path, x.status))).Perm
      (leafPairs ((specMap (files.map entOf)).map (fun kv => kv.2)) 0) := by
    unfold leafPairs
    exact (h1.filter _).map _
  refine h3.trans (h2.trans ?_)
  rw [List.map_map]
  have hco : pairOf ∘ entOf = fun f => (f.path, f.status.as_str) := by
    funext f
    simp [pairOf, entOf]
  rw [hco]

/-- C5 counterexample: the claim as stated quantifies over every input
list, but with input `[a (modified), a/b (added)]` the file node `a`
created first swallows `a/b` as a child while keeping `is_folder = false`,
so `flatten_tree` never walks the child: the flattened output has no leaf
for the distinct input path `a/b`. -/
theorem c5_counterexample :
    ("a/b" ∈ (([⟨"a", .Modified, 0, 0⟩, ⟨"a/b", .Added, 0, 0⟩] : List FileChange).map
        (fun f => f.path))) ∧
    ¬ ∃ x ∈ flatten_tree (build_file_tree
        ([⟨"a", .Modified, 0, 0⟩, ⟨"a/b", .Added, 0, 0⟩] : List FileChange)) 0,
        x.is_folder = false ∧ x.path = "a/b" := by
  constructor
  · decide
  · have h1 : build_file_tree
        ([⟨"a", .Modified, 0, 0⟩, ⟨"a/b", .Added, 0, 0⟩] : List FileChange)
        = sort_tree [.mk "a" "a" false
            [.mk "b" "a/b" false [] (some "added")] (some "modified")] := rfl
    rw [h1, sort_tree_singleton, sortNode_eq, sort_tree_singleton, sortNode_eq,
      sort_tree_nil]
    rw [flatten_tree_eq_flatMap]
    decide

/-- C5 witness: the amended round-trip theorem applied to the concrete
input `[a/b (added), c (modified)]`, whose split paths pairwise diverge. -/
theorem c5_witness :
    (([⟨"a/b", .Added, 0, 0⟩, ⟨"c", .Modified, 0, 0⟩] : List FileChange).Pairwise fcDiv) ∧
    (((flatten_tree (build_file_tree
          ([⟨"a/b", .Added, 0, 0⟩, ⟨"c", .Modified, 0, 0⟩] : List FileChange)) 0).filter
        (fun x => !x.is_folder)).map (fun x => (x.path, x.status))).Perm
      (([⟨"a/b", .Added, 0, 0⟩, ⟨"c", .Modified, 0, 0⟩] : List FileChange).map
        (fun f => (f.path, f.status.as_str))) :=
  ⟨by decide, c5_leaf_round_trip _ (by decide)⟩

theorem strCmp_ne_gt {s t : String} : strCmp s t ≠ .gt ↔ s ≤ t := by
  unfold strCmp
  by_cases h1 : s.data < t.data
  · rw [if_pos h1]
    have h1' : s < t := String.lt_iff_toList_lt.mpr h1
    exact ⟨fun _ => le_of_lt h1', fun _ h => Ordering.noConfusion h⟩
  · rw [if_neg h1]
    by_cases h2 : t.data < s.data
    · rw [if_pos h2]
      have h2' : t < s := String.lt_iff_toList_lt.mpr h2
      exact ⟨fun h => absurd rfl h, fun hle => absurd hle (not_le_of_lt h2')⟩
    · rw [if_neg h2]
      have h2' : ¬ t < s := fun hh => h2 (String.lt_iff_toList_lt.mp hh)
      exact ⟨fun _ => le_of_not_lt h2', fun _ h => Ordering.noConfusion h⟩

theorem strCmp_eq_iff {s t : String} : strCmp s t = .eq ↔ s = t := by
  unfold strCmp
  by_cases h1 : s.data < t.data
  · rw [if_pos h1]
    have h1' : s < t := String.lt_iff_toList_lt.mpr h1
    exact ⟨fun h => Ordering.noConfusion h, fun h => absurd h (ne_of_lt h1')⟩
  · rw [if_neg h1]
    by_cases h2 : t.data < s.data
    · rw [if_pos h2]
      have h2' : t < s := String.lt_iff_toList_lt.mpr h2
      exact ⟨fun h => Ordering.noConfusion h, fun h => absurd h.symm (ne_of_lt h2')⟩
    · rw [if_neg h2]
      have ha : ¬ s < t := fun hh => h1 (String.lt_iff_toList_lt.mp hh)
      have hb : ¬ t < s := fun hh => h2 (String.lt_iff_toList_lt.mp hh)
      exact ⟨fun _ => le_antisymm (le_of_not_lt hb) (le_of_not_lt ha), fun _ => rfl⟩

theorem nodeLe_iff {a b : FileTreeNode} :
    nodeLe a b = true ↔
      ((a.is_folder = true ∧ b.is_folder = false) ∨
        (a.is_folder = b.is_folder ∧ strToLower a.name ≤ strToLower b.name)) := by
  unfold nodeLe nodeCmp
  cases ha : a.is_folder <;> cases hb : b.is_folder <;>
    simp [strCmp_ne_gt]

theorem nodeLe_trans {a b c : FileTreeNode}
    (hab : nodeLe a b = true) (hbc : nodeLe b c = true) : nodeLe a c = true := by
  rw [nodeLe_iff] at *
  rcases hab with ⟨ha1, ha2⟩ | ⟨ha1, ha2⟩ <;>
    rcases hbc with ⟨hb1, hb2⟩ | ⟨hb1, hb2⟩
  · rw [ha2] at hb1
    exact absurd hb1 (by simp)
  · exact Or.inl ⟨ha1, hb1 ▸ ha2⟩
  · exact Or.inl ⟨ha1.trans hb1, hb2⟩
  · exact Or.inr ⟨ha1.trans hb1, le_trans ha2 hb2⟩

theorem nodeLe_total (a b : FileTreeNode) :
    (nodeLe a b || nodeLe b a) = true := by
  rw [Bool.or_eq_true, nodeLe_iff, nodeLe_iff]
  cases ha : a.is_folder <;> cases hb : b.is_folder <;>
    rcases le_total (strToLower a.name) (strToLower b.name) with h | h <;> simp [ha, hb, h]

theorem sortNode_name (n : FileTreeNode) : (sortNode n).name = n.name := by
  cases n with
  | mk nm p f cs st =>
    rw [sortNode_eq]
    rfl

theorem sortNode_is_folder (n : FileTreeNode) :
    (sortNode n).is_folder = n.is_folder := by
  cases n with
  | mk nm p f cs st =>
    rw [sortNode_eq]
    rfl

theorem sortNode_children (n : FileTreeNode) :
    (sortNode n).children = sort_tree n.children := by
  cases n with
  | mk nm p f cs st =>
    rw [sortNode_eq]
    rfl

theorem nodeLe_sortNode (a b : FileTreeNode) :
    nodeLe (sortNode a) (sortNode b) = nodeLe a b := by
  unfold nodeLe nodeCmp
  rw [sortNode_is_folder, sortNode_is_folder, sortNode_name, sortNode_name]

theorem sortedForest_map_sortNode {l : List FileTreeNode}
    (hpw : l.Pairwise (fun a b => nodeLe a b = true))
    (hch : ∀ n ∈ l, SortedForest (sort_tree n.children)) :
    SortedForest (l.map sortNode) := by
  induction l with
  | nil => exact .nil
  | cons a t ih =>
    rw [List.map_cons]
    obtain ⟨hhead, htail⟩ := List.pairwise_cons.mp hpw
    refine .cons ?_ ?_ ?_
    · intro m hm
      obtain ⟨b, hb, rfl⟩ := List.mem_map.mp hm
      rw [nodeLe_sortNode]
      exact hhead b hb
    · rw [sortNode_children]
      exact hch a (List.mem_cons_self a t)
    · exact ih htail (fun n hn => hch n (List.mem_cons_of_mem a hn))

theorem sortedForest_sort_tree : ∀ (N : Nat) (ns : List FileTreeNode),
    sizeOf ns ≤ N → SortedForest (sort_tree ns) := by
  intro N
  induction N with
  | zero =>
    intro ns h
    exfalso
    cases ns <;> simp at h
  | succ N ih =>
    intro ns h
    rw [sort_tree_eq_map]
    apply sortedForest_map_sortNode
    · have htrans : ∀ (a b c : FileTreeNode),
          nodeLe a b = true → nodeLe b c = true → nodeLe a c = true :=
        fun a b c hab hbc => nodeLe_trans hab hbc
      exact List.sorted_mergeSort htrans nodeLe_total ns
    · intro n hn
      have hmem : n ∈ ns := List.mem_mergeSort.mp hn
      have hsz : sizeOf n < sizeOf ns := List.sizeOf_lt_of_mem hmem
      apply ih
      cases n with
      | mk nm p f cs st =>
        have hlt : sizeOf cs < sizeOf (FileTreeNode.mk nm p f cs st) := by
          simp
          omega
        simp only [FileTreeNode.children]
        omega

theorem divCiB_cons_same {a : String} {p q : List String} :
    divCiB (a :: p) (a :: q) = divCiB p q := by
  simp [divCiB]

theorem divCiB_symm (p q : List String) : divCiB p q = divCiB q p := by
  induction p generalizing q with
  | nil => cases q <;> rfl
  | cons a p ih =>
    cases q with
    | nil => rfl
    | cons b q =>
      by_cases h : a = b
      · subst h
        rw [divCiB_cons_same, divCiB_cons_same, ih]
      · have h2 : ¬ b = a := fun hh => h hh.symm
        unfold divCiB
        rw [if_neg h, if_neg h2]
        simp [ne_comm]

theorem divCi_imp_div {p q : List String} (h : divCiB p q = true) :
    divB p q = true := by
  induction p generalizing q with
  | nil => simp [divCiB] at h
  | cons a p ih =>
    cases q with
    | nil => simp [divCiB] at h
    | cons b q =>
      by_cases hab : a = b
      · subst hab
        rw [divCiB_cons_same] at h
        rw [divB_cons_same]
        exact ih h
      · unfold divB
        rw [if_neg hab]

theorem divCiB_head {a b : String} {p q : List String} (hne : a ≠ b)
    (h : divCiB (a :: p) (b :: q) = true) : strToLower a ≠ strToLower b := by
  unfold divCiB at h
  rw [if_neg hne] at h
  simpa using h

theorem entRelCi_symm : Symmetric entRelCi := by
  intro a b h
  unfold entRelCi at *
  rw [divCiB_symm]
  exact h

theorem entRelCi_imp_relDiv {a b : Ent} (h : entRelCi a b) : entRelDiv a b :=
  divCi_imp_div h

theorem group_tails_pairwise_ci {g : List Ent} {k : String}
    (hpw : g.Pairwise entRelCi)
    (hkey : ∀ s ∈ g, headKey s = k)
    (hne : ∀ s ∈ g, s.parts ≠ []) :
    (g.map entTail).Pairwise entRelCi := by
  rw [List.pairwise_map]
  refine hpw.imp_of_mem ?_
  intro a b ha hb hab
  obtain ⟨ta, hta⟩ := parts_head_cons (hne a ha) (hkey a ha)
  obtain ⟨tb, htb⟩ := parts_head_cons (hne b hb) (hkey b hb)
  unfold entRelCi entTail at *
  simp only [hta, htb, List.tail_cons] at *
  rw [divCiB_cons_same] at hab
  exact hab

theorem sort_specMap_perm_eq : ∀ (N : Nat) (es es' : List Ent),
    entsSize es ≤ N → es.Perm es' →
    (∀ x ∈ es, x.parts ≠ []) → es.Pairwise entRelCi →
    sort_tree ((specMap es).map (fun kv => kv.2))
      = sort_tree ((specMap es').map (fun kv => kv.2)) := by
  intro N
  induction N with
  | zero =>
    intro es es' hsz hperm hne hpw
    have hnil : es = [] := by
      cases es with
      | nil => rfl
      | cons e t =>
        exfalso
        have h1 := hne e (List.mem_cons_self e t)
        have h2 : 0 < e.parts.length := List.length_pos.mpr h1
        have h3 : entsSize (e :: t) = e.parts.length + entsSize t := entsSize_cons e t
        omega
    subst hnil
    rw [List.perm_nil.mp hperm.symm]
  | succ N ih =>
    intro es es' hsz hperm hne hpw
    have hne' : ∀ x ∈ es', x.parts ≠ [] := fun x hx => hne x (hperm.mem_iff.mpr hx)
    have hpw' : es'.Pairwise entRelCi := (hperm.pairwise_iff (fun hxy => entRelCi_symm hxy)).mp hpw
    have hknd : (firstDedup (es.map headKey)).Nodup := nodup_firstDedup _
    have hknd' : (firstDedup (es'.map headKey)).Nodup := nodup_firstDedup _
    have hmemks : ∀ k, k ∈ firstDedup (es.map headKey)
        ↔ k ∈ firstDedup (es'.map headKey) := by
      intro k
      rw [mem_firstDedup_iff, mem_firstDedup_iff]
      exact (hperm.map headKey).mem_iff
    have hkperm : (firstDedup (es.map headKey)).Perm (firstDedup (es'.map headKey)) :=
      (List.perm_ext_iff_of_nodup hknd hknd').mpr hmemks
    have hFF : ∀ k ∈ firstDedup (es.map headKey),
        sortNode (specNodeOf k (es.filter (fun e => headKey e = k)))
          = sortNode (specNodeOf k (es'.filter (fun e => headKey e = k))) := by
      intro k hk
      have hgg : (es.filter (fun e => headKey e = k)).Perm
          (es'.filter (fun e => headKey e = k)) := hperm.filter _
      have hkeyg : ∀ s ∈ es.filter (fun e => headKey e = k), headKey s = k := by
        intro s hs
        have := (List.mem_filter.mp hs).2
        simpa using this
      have hgne : ∀ s ∈ es.filter (fun e => headKey e = k), s.parts ≠ [] :=
        fun s hs => hne s (List.mem_filter.mp hs).1
      have hgpwCi : (es.filter (fun e => headKey e = k)).Pairwise entRelCi :=
        hpw.filter _
      have hgpwD : (es.filter (fun e => headKey e = k)).Pairwise entRelDiv :=
        hgpwCi.imp entRelCi_imp_relDiv
      have hgnil : es.filter (fun e => headKey e = k) ≠ [] := by
        have hk2 := (mem_firstDedup_iff _ _).mp hk
        obtain ⟨e, he, hek⟩ := List.mem_map.mp hk2
        exact List.ne_nil_of_mem (List.mem_filter.mpr ⟨he, by simp [hek]⟩)
      by_cases hall : (es.filter (fun e => headKey e = k)).all
          (fun e => e.parts.length == 1) = true
      · obtain ⟨e, hge, hek⟩ := group_file_singleton hgpwD hkeyg hgne hgnil hall
        have hg'e : es'.filter (fun e => headKey e = k) = [e] := by
          rw [hge] at hgg
          exact (List.singleton_perm.mp hgg).symm
        rw [hge, hg'e]
      · have hall' : ¬ (es'.filter (fun e => headKey e = k)).all
            (fun e => e.parts.length == 1) = true := by
          intro hcon
          apply hall
          rw [List.all_eq_true] at hcon ⊢
          exact fun e he => hcon e (hgg.mem_iff.mp he)
        have htails := group_folder_tails hgpwD hkeyg hgne hall
        have hnode : specNodeOf k (es.filter (fun e => headKey e = k))
            = .mk k k true
              ((specMap ((es.filter (fun e => headKey e = k)).map entTail)).map
                (fun kv => kv.2)) none := by
          unfold specNodeOf
          rw [if_neg hall]
        have hnode' : specNodeOf k (es'.filter (fun e => headKey e = k))
            = .mk k k true
              ((specMap ((es'.filter (fun e => headKey e = k)).map entTail)).map
                (fun kv => kv.2)) none := by
          unfold specNodeOf
          rw [if_neg hall']
        rw [hnode, hnode', sortNode_eq, sortNode_eq]
        have hszg : entsSize ((es.filter (fun e => headKey e = k)).map entTail) ≤ N := by
          have h1 : entsSize ((es.filter (fun e => headKey e = k)).map entTail)
              < entsSize (es.filter (fun e => headKey e = k)) :=
            entsSize_map_entTail_lt hgne hgnil
          have h2 : entsSize (es.filter (fun e => headKey e = k)) ≤ entsSize es :=
            entsSize_le_of_sublist (List.filter_sublist es)
          omega
        have hnet : ∀ x ∈ (es.filter (fun e => headKey e = k)).map entTail,
            x.parts ≠ [] := by
          intro x hx
          obtain ⟨s, hs, rfl⟩ := List.mem_map.mp hx
          obtain ⟨r, rs, hrs⟩ := htails s hs
          simp [entTail, hrs]
        have hpwt : ((es.filter (fun e => headKey e = k)).map entTail).Pairwise entRelCi :=
          group_tails_pairwise_ci hgpwCi hkeyg hgne
        have hrec := ih ((es.filter (fun e => headKey e = k)).map entTail)
          ((es'.filter (fun e => headKey e = k)).map entTail)
          hszg (hgg.map entTail) hnet hpwt
        rw [hrec]
    rw [specMap_shape_ne hne, specMap_shape_ne hne', List.map_map, List.map_map,
      sort_tree_eq_map, sort_tree_eq_map]
    have hcomp : ((fun kv : String × FileTreeNode => kv.2) ∘
        (fun k => (k, specNodeOf k (es.filter (fun e => headKey e = k)))))
        = fun k => specNodeOf k (es.filter (fun e => headKey e = k)) := rfl
    have hcomp' : ((fun kv : String × FileTreeNode => kv.2) ∘
        (fun k => (k, specNodeOf k (es'.filter (fun e => headKey e = k)))))
        = fun k => specNodeOf k (es'.filter (fun e => headKey e = k)) := rfl
    rw [hcomp, hcomp']
    have hS : ∀ (l : List FileTreeNode),
        ((l.mergeSort nodeLe).map sortNode).Pairwise (fun a b => nodeLe a b = true) := by
      intro l
      have htrans : ∀ (a b c : FileTreeNode),
          nodeLe a b = true → nodeLe b c = true → nodeLe a c = true :=
        fun a b c hab hbc => nodeLe_trans hab hbc
      have h1 := List.sorted_mergeSort htrans nodeLe_total l
      refine List.Pairwise.map sortNode ?_ h1
      intro a b hab
      rw [nodeLe_sortNode]
      exact hab
    have hLperm : ((((firstDedup (es.map headKey)).map
          (fun k => specNodeOf k (es.filter (fun e => headKey e = k)))).mergeSort
            nodeLe).map sortNode).Perm
        ((((firstDedup (es'.map headKey)).map
          (fun k => specNodeOf k (es'.filter (fun e => headKey e = k)))).mergeSort
            nodeLe).map sortNode) := by
      have p1 := (List.mergeSort_perm ((firstDedup (es.map headKey)).map
          (fun k => specNodeOf k (es.filter (fun e => headKey e = k)))) nodeLe).map
            sortNode
      have p2 := (List.mergeSort_perm ((firstDedup (es'.map headKey)).map
          (fun k => specNodeOf k (es'.filter (fun e => headKey e = k)))) nodeLe).map
            sortNode
      refine p1.trans (List.Perm.trans ?_ p2.symm)
      rw [List.map_map, List.map_map]
      have heq : (firstDedup (es.map headKey)).map
          (sortNode ∘ fun k => specNodeOf k (es.filter (fun e => headKey e = k)))
          = (firstDedup (es.map headKey)).map
            (sortNode ∘ fun k => specNodeOf k (es'.filter (fun e => headKey e = k))) :=
        List.map_congr_left (fun k hk => hFF k hk)
      rw [heq]
      exact hkperm.map _
    refine hLperm.eq_of_sorted ?_ (hS _) (hS _)
    intro a b ha hb hab hba
    obtain ⟨x, hx, rfl⟩ := List.mem_map.mp ha
    obtain ⟨y, hy, rfl⟩ := List.mem_map.mp hb
    have hx2 := List.mem_mergeSort.mp hx
    have hy2 := List.mem_mergeSort.mp hy
    obtain ⟨k1, hk1, rfl⟩ := List.mem_map.mp hx2
    obtain ⟨k2, hk2, rfl⟩ := List.mem_map.mp hy2
    have hn1 : (sortNode (specNodeOf k1
        (es.filter (fun e => headKey e = k1)))).name = k1 := by
      rw [sortNode_name, specNodeOf_name]
    have hn2 : (sortNode (specNodeOf k2
        (es'.filter (fun e => headKey e = k2)))).name = k2 := by
      rw [sortNode_name, specNodeOf_name]
    have hlow : strToLower k1 = strToLower k2 := by
      rw [nodeLe_iff] at hab hba
      rcases hab with ⟨ha1, ha2⟩ | ⟨ha1, ha2⟩ <;>
        rcases hba with ⟨hb1, hb2⟩ | ⟨hb1, hb2⟩
      · rw [ha2] at hb1
        exact absurd hb1 (by simp)
      · rw [ha2, ha1] at hb1
        exact absurd hb1 (by simp)
      · rw [hb2, hb1] at ha1
        exact absurd ha1 (by simp)
      · have heq := le_antisymm ha2 hb2
        rw [hn1, hn2] at heq
        exact heq
    have hk2' : k2 ∈ firstDedup (es.map headKey) := (hmemks k2).mpr hk2
    by_cases hkk : k1 = k2
    · subst hkk
      exact hFF k1 hk1
    · exfalso
      obtain ⟨e1, he1, hek1⟩ := List.mem_map.mp ((mem_firstDedup_iff _ _).mp hk1)
      obtain ⟨e2, he2, hek2⟩ := List.mem_map.mp ((mem_firstDedup_iff _ _).mp hk2')
      have hne12 : e1 ≠ e2 := fun h => hkk (by rw [← hek1, ← hek2, h])
      have hrel : entRelCi e1 e2 := hpw.forall entRelCi_symm he1 he2 hne12
      obtain ⟨t1, ht1⟩ := parts_head_cons (hne e1 he1) hek1
      obtain ⟨t2, ht2⟩ := parts_head_cons (hne e2 he2) hek2
      unfold entRelCi at hrel
      rw [ht1, ht2] at hrel
      exact (divCiB_head hkk hrel) hlow

/-- C4 (amended, stated on ASCII paths — the domain where the
per-character model of `str::to_lowercase` is exact): the built tree
satisfies `SortedForest` — every sibling list is sorted by `nodeLe`
(folders before files, same-kind ties case-insensitively by name),
recursively — with no further hypothesis; and if moreover the slash-split
paths pairwise diverge case-insensitively at some segment, running the
pipeline on any permutation of the same input yields an identical
flattened sequence. -/
theorem c4_sorted_and_perm_invariant (files files' : List FileChange)
    (hascii : ∀ f ∈ files, asciiPath f) :
    SortedForest (build_file_tree files) ∧
    (files.Perm files' → files.Pairwise fcCiDiv →
      flatten_tree (build_file_tree files) 0
        = flatten_tree (build_file_tree files') 0) := by
  constructor
  · rw [build_file_tree_eq]
    exact sortedForest_sort_tree
      (sizeOf ((buildMap (files.map entOf)).map (fun kv => kv.2))) _ le_rfl
  · intro hperm hdiv
    have hne : ∀ x ∈ files.map entOf, x.parts ≠ [] := by
      intro x hx
      obtain ⟨f, hf, rfl⟩ := List.mem_map.mp hx
      exact splitSlash_ne_nil _
    have hpwCi : (files.map entOf).Pairwise entRelCi := by
      rw [List.pairwise_map]
      exact hdiv.imp (fun hd => hd)
    have hpw5 : (files.map entOf).Pairwise entRel5 :=
      hpwCi.imp (fun hd => Or.inr (divCi_imp_div hd))
    have hne' : ∀ x ∈ files'.map entOf, x.parts ≠ [] := by
      intro x hx
      obtain ⟨f, hf, rfl⟩ := List.mem_map.mp hx
      exact splitSlash_ne_nil _
    have hpermE : (files.map entOf).Perm (files'.map entOf) := hperm.map entOf
    have hpwCi' : (files'.map entOf).Pairwise entRelCi :=
      (hpermE.pairwise_iff (fun hxy => entRelCi_symm hxy)).mp hpwCi
    have hpw5' : (files'.map entOf).Pairwise entRel5 :=
      hpwCi'.imp (fun hd => Or.inr (divCi_imp_div hd))
    have hbuild : build_file_tree files = build_file_tree files' := by
      rw [build_file_tree_eq, build_file_tree_eq,
        buildMap_eq_specMap _ hne hpw5, buildMap_eq_specMap _ hne' hpw5']
      exact sort_specMap_perm_eq (entsSize (files.map entOf)) _ _ le_rfl
        hpermE hne hpwCi
    rw [hbuild]

/-- C4 counterexample: the claim as stated promises an identical
flattened sequence for every permutation of every input list, but the two
files `A` and `a` tie under the case-insensitive comparator, the stable
sort keeps their insertion order, and the two orders flatten
differently. -/
theorem c4_counterexample :
    (([⟨"A", .Added, 0, 0⟩, ⟨"a", .Modified, 0, 0⟩] : List FileChange).Perm
      [⟨"a", .Modified, 0, 0⟩, ⟨"A", .Added, 0, 0⟩]) ∧
    flatten_tree (build_file_tree
        ([⟨"A", .Added, 0, 0⟩, ⟨"a", .Modified, 0, 0⟩] : List FileChange)) 0
      ≠ flatten_tree (build_file_tree
        ([⟨"a", .Modified, 0, 0⟩, ⟨"A", .Added, 0, 0⟩] : List FileChange)) 0 := by
  constructor
  · decide
  · have h1 : build_file_tree
        ([⟨"A", .Added, 0, 0⟩, ⟨"a", .Modified, 0, 0⟩] : List FileChange)
        = sort_tree [.mk "A" "A" false [] (some "added"),
            .mk "a" "a" false [] (some "modified")] := rfl
    have h2 : build_file_tree
        ([⟨"a", .Modified, 0, 0⟩, ⟨"A", .Added, 0, 0⟩] : List FileChange)
        = sort_tree [.mk "a" "a" false [] (some "modified"),
            .mk "A" "A" false [] (some "added")] := rfl
    rw [h1, h2, sort_tree_pair (by decide), sort_tree_pair (by decide)]
    simp only [sortNode_eq, sort_tree_nil]
    rw [flatten_tree_eq_flatMap, flatten_tree_eq_flatMap]
    decide

/-- C4 witness: the amended theorem applied to the concrete permuted
inputs `[b/x (added), a (modified)]` and `[a (modified), b/x (added)]`,
whose paths are ASCII and whose split paths pairwise diverge
case-insensitively. -/
theorem c4_witness :
    ((∀ f ∈ ([⟨"b/x", .Added, 0, 0⟩, ⟨"a", .Modified, 0, 0⟩] : List FileChange),
        asciiPath f) ∧
      ([⟨"b/x", .Added, 0, 0⟩, ⟨"a", .Modified, 0, 0⟩] : List FileChange).Perm
        [⟨"a", .Modified, 0, 0⟩, ⟨"b/x", .Added, 0, 0⟩] ∧
      ([⟨"b/x", .Added, 0, 0⟩, ⟨"a", .Modified, 0, 0⟩] : List FileChange).Pairwise
        fcCiDiv) ∧
    (SortedForest (build_file_tree
        ([⟨"b/x", .Added, 0, 0⟩, ⟨"a", .Modified, 0, 0⟩] : List FileChange)) ∧
      flatten_tree (build_file_tree
          ([⟨"b/x", .Added, 0, 0⟩, ⟨"a", .Modified, 0, 0⟩] : List FileChange)) 0
        = flatten_tree (build_file_tree
          ([⟨"a", .Modified, 0, 0⟩, ⟨"b/x", .Added, 0, 0⟩] : List FileChange)) 0) :=
  ⟨⟨by decide, by decide, by decide⟩,
    ⟨(c4_sorted_and_perm_invariant
        [⟨"b/x", .Added, 0, 0⟩, ⟨"a", .Modified, 0, 0⟩]
        [⟨"a", .Modified, 0, 0⟩, ⟨"b/x", .Added, 0, 0⟩] (by decide)).1,
      (c4_sorted_and_perm_invariant _ _ (by decide)).2 (by decide) (by decide)⟩⟩
